import Mathlib

/-!
Verification of `scripts/assign_metadata_from_csv.py` and `scripts/tree_build.py`
(My-Lex-Base).  Text is modelled as `List Char`; Python dicts whose only observed
operations are lookup and update are modelled as association lists with an
in-place `upsert`.  Library functions of Python (regexes, `str` methods,
`unicodedata`) are modelled character-wise, faithful to their documented
behaviour on the character ranges this program manipulates.
-/

namespace MyLex

/-- Model of the character set matched by Python's `\s` in `str` regexes and
stripped by `str.strip`/`str.lstrip`: ASCII whitespace plus the Unicode
whitespace code points. -/
def isWs (c : Char) : Bool :=
  (0x09 ≤ c.toNat && c.toNat ≤ 0x0d) || c.toNat == 0x20 ||
  (0x1c ≤ c.toNat && c.toNat ≤ 0x1f) || c.toNat == 0x85 || c.toNat == 0xa0 ||
  c.toNat == 0x1680 || (0x2000 ≤ c.toNat && c.toNat ≤ 0x200a) ||
  c.toNat == 0x2028 || c.toNat == 0x2029 || c.toNat == 0x202f ||
  c.toNat == 0x205f || c.toNat == 0x3000

/-- Model of the line-break set of Python's `str.splitlines`. -/
def isLineBreak (c : Char) : Bool :=
  c.toNat == 0x0a || c.toNat == 0x0d || c.toNat == 0x0b || c.toNat == 0x0c ||
  (0x1c ≤ c.toNat && c.toNat ≤ 0x1e) || c.toNat == 0x85 ||
  c.toNat == 0x2028 || c.toNat == 0x2029

/-- Python `str.lstrip()` (no argument): drop leading whitespace. -/
def pyLstrip (s : List Char) : List Char := s.dropWhile isWs

/-- Python `str.rstrip()` (no argument): drop trailing whitespace. -/
def pyRstrip (s : List Char) : List Char := (s.reverse.dropWhile isWs).reverse

/-- Python `str.strip()` (no argument). -/
def pyStrip (s : List Char) : List Char := pyRstrip (pyLstrip s)

/-- Model of `unicodedata.normalize("NFKC", ·)` as a character-wise map.
NFKC sends each full-width form U+FF01..U+FF5E to its ASCII counterpart and
the ideographic space U+3000 to U+0020; on ASCII and on the CJK unified range
U+4E00..U+9FFF it is the identity, and the model keeps every other character
fixed as well. -/
def nfkcChar (c : Char) : Char :=
  if 0xff01 ≤ c.toNat ∧ c.toNat ≤ 0xff5e then Char.ofNat (c.toNat - 0xfee0)
  else if c.toNat = 0x3000 then Char.ofNat 0x20
  else c

/-- Model of `str.casefold()` as a character-wise map: ASCII upper-case letters
go to lower case, every other character is kept fixed. -/
def casefoldChar (c : Char) : Char :=
  if 0x41 ≤ c.toNat ∧ c.toNat ≤ 0x5a then Char.ofNat (c.toNat + 0x20) else c

/-- `nfkc` of the source (line 33). -/
def nfkc (s : List Char) : List Char := s.map nfkcChar

/-- `str.casefold()` lifted to strings. -/
def pyCasefold (s : List Char) : List Char := s.map casefoldChar

/-- The character class of `ALNUM_CJK_RE` (line 31): ASCII digits and letters
and the CJK range U+4E00..U+9FFF.  `ALNUM_CJK_RE.sub("", s)` deletes every
character outside this class. -/
def isKeepChar (c : Char) : Bool :=
  (0x30 ≤ c.toNat && c.toNat ≤ 0x39) || (0x41 ≤ c.toNat && c.toNat ≤ 0x5a) ||
  (0x61 ≤ c.toNat && c.toNat ≤ 0x7a) || (0x4e00 ≤ c.toNat && c.toNat ≤ 0x9fff)

/-- `re.sub(r"\s+", " ", s)`: replace each maximal whitespace run by one
space.  The boolean argument records whether the previous character was part
of a whitespace run. -/
def collapseWsAux : Bool → List Char → List Char
  | _, [] => []
  | true, c :: cs =>
    if isWs c then collapseWsAux true cs else c :: collapseWsAux false cs
  | false, c :: cs =>
    if isWs c then Char.ofNat 0x20 :: collapseWsAux true cs
    else c :: collapseWsAux false cs

/-- `re.sub(r"\s+", " ", s)`. -/
def collapseWs (s : List Char) : List Char := collapseWsAux false s

/-- `normalize_title` of the source (lines 36-43).  The `Option` input models
the `if s is None` branch. -/
def normalize_title : Option (List Char) → List Char
  | none => []
  | some s => (collapseWs (pyStrip (pyCasefold (nfkc s)))).filter isKeepChar

/-- Code points of the character class of `PUNCT_RE` (line 30), besides
whitespace: punctuation and common separators. -/
def punctCodes : List Nat :=
  [0x2d, 0x5f, 0x2f, 0x5c, 0xb7, 0x2022, 0xff0c, 0x2c, 0x3002, 0xff0e,
   0x3001, 0xff1a, 0x3a, 0xff1b, 0x3b, 0xff01, 0x21, 0xff1f, 0x3f, 0xff08,
   0xff09, 0x28, 0x29, 0xff3b, 0x5b, 0x5d, 0xff3d, 0x3010, 0x3011, 0x3c,
   0x3e, 0x201c, 0x201d, 0x27, 0x60, 0x7c, 0x7e, 0x5e, 0x2b, 0x2a, 0x3d,
   0x2026, 0x2014, 0x2013, 0xff0d]

/-- The character class of `PUNCT_RE`: whitespace or a listed punctuation
character. -/
def isPunct (c : Char) : Bool := isWs c || punctCodes.contains c.toNat

/-- `PUNCT_RE.sub(" ", s)`: each maximal run of class characters becomes one
space. -/
def punctSubAux : Bool → List Char → List Char
  | _, [] => []
  | true, c :: cs =>
    if isPunct c then punctSubAux true cs else c :: punctSubAux false cs
  | false, c :: cs =>
    if isPunct c then Char.ofNat 0x20 :: punctSubAux true cs
    else c :: punctSubAux false cs

/-- `slugify_title` of the source (lines 46-52). -/
def slugify_title : Option (List Char) → List Char
  | none => []
  | some s => collapseWs (punctSubAux false (pyStrip (pyCasefold (nfkc s))))

/-- The composite character fold performed by `normalize_title` before the
alphanumeric filter: width folding (NFKC) then case folding. -/
def foldChar (c : Char) : Char := casefoldChar (nfkcChar c)

/-! ### Metadata catalog and candidate scorer -/

/-- A CSV row after `load_csv`: a Python dict from field name to string. -/
abbrev Row := List (List Char × List Char)

/-- Python `dict.get(k)`: `none` models both a missing key and `None`. -/
def rowGet (r : Row) (k : List Char) : Option (List Char) :=
  (r.find? (fun kv => kv.1 == k)).map (fun kv => kv.2)

/-- Python `a or b` over optional strings: `None` and `""` are falsy. -/
def pyOrOpt (a b : Option (List Char)) : Option (List Char) :=
  match a with
  | some v => if v = [] then b else some v
  | none => b

/-- Python `str.lstrip("0")`. -/
def lstripZeros (s : List Char) : List Char := s.dropWhile (fun c => c == '0')

/-- `(r.get("category_code") or r.get("category") or r.get("类目编码") or "").lstrip("0")`
(lines 81, 93, 184 of the source). -/
def rowCategory (r : Row) : List Char :=
  lstripZeros ((pyOrOpt (rowGet r ("category_code".toList))
    (pyOrOpt (rowGet r ("category".toList)) (rowGet r ("类目编码".toList)))).getD [])

/-- One entry of `build_title_items` (lines 185-192). -/
structure TitleItem where
  idx : Nat
  row : Row
  title : List Char
  norm : List Char
  slug : List Char
  category : List Char
deriving DecidableEq

/-- `build_title_items` of the source (lines 178-193). -/
def build_title_items (rows : List Row) : List TitleItem :=
  rows.enum.filterMap (fun p =>
    match rowGet p.2 ("title".toList) with
    | none => none
    | some t =>
      if t = [] then none
      else some { idx := p.1, row := p.2, title := t,
                  norm := normalize_title (some t), slug := slugify_title (some t),
                  category := rowCategory p.2 })

/-- A content file path as used by `best_candidates_for_md`: its components
(`md.parts`) and its file name without the final suffix (`md.stem`). -/
structure MdPath where
  parts : List (List Char)
  stem : List Char
deriving DecidableEq

/-- Python `\d` modelled on the decimal digits occurring in this corpus's
paths: ASCII digits and their full-width forms. -/
def pyIsDigit (c : Char) : Bool :=
  (0x30 ≤ c.toNat && c.toNat ≤ 0x39) || (0xff10 ≤ c.toNat && c.toNat ≤ 0xff19)

/-- Lines 198-203 of the source: the category hint parsed from the path
(`re.match(r"^(\d+)", parts[1])` — a non-empty leading digit run — with
leading zeros stripped), or `""`. -/
def mdCatOf (md : MdPath) (content_root : List Char) : List Char :=
  match md.parts with
  | p0 :: p1 :: _ =>
    if p0 = content_root then
      let ds := p1.takeWhile pyIsDigit
      if ds = [] then [] else lstripZeros ds
    else []
  | _ => []

/-- The additive score of lines 211-216 of the source. -/
def candScore (md_norm md_cat : List Char) (t : TitleItem) : Int :=
  500 + (if t.norm = md_norm then 500 else 0)
    + (if t.category = md_cat ∧ md_cat ≠ [] then 100 else 0)
    + max 0 (100 - (((t.norm.length : Int) - (md_norm.length : Int)).natAbs : Int))

/-- The sort ordering of line 219 (`key=lambda x: (-x[0], -len(x[1]["norm"]))`,
ascending): higher score first, then longer normalized title. -/
def candLe (a b : Int × TitleItem) : Prop :=
  b.1 < a.1 ∨ (a.1 = b.1 ∧ b.2.norm.length ≤ a.2.norm.length)

instance : DecidableRel candLe := fun a b => by
  unfold candLe
  infer_instance

/-- `best_candidates_for_md` of the source (lines 196-220).  Python's
`list.sort` is a stable sort by the given key; `List.insertionSort` is stable
for this total preorder, hence extensionally the same function. -/
def best_candidates_for_md (md : MdPath) (title_items : List TitleItem)
    (content_root : List Char) : List (Int × TitleItem) :=
  let md_norm := normalize_title (some md.stem)
  let md_cat := mdCatOf md content_root
  let cands := title_items.filterMap (fun t =>
    if t.norm = [] ∨ md_norm = [] then none
    else if t.norm = md_norm ∨ t.norm <:+: md_norm ∨ md_norm <:+: t.norm then
      some (candScore md_norm md_cat t, t)
    else none)
  List.insertionSort candLe cands

def rowA : Row := [(("title".toList), ("a".toList))]

def itemA : TitleItem :=
  { idx := 0, row := rowA, title := "a".toList, norm := "a".toList,
    slug := "a".toList, category := [] }

def mdA : MdPath := ⟨[("content".toList), ("01-x".toList)], "a".toList⟩

/-! ### Greedy assignment resolver (main, lines 269-285) -/

/-- One entry of the `md_candidates` dict: a content file and its ranked
candidate list. -/
abbrev DocEntry := MdPath × List (Int × TitleItem)

/-- `md_candidates` of main (lines 270-272). -/
def md_candidates (mds : List MdPath) (items : List TitleItem)
    (root : List Char) : List DocEntry :=
  mds.map (fun md => (md, best_candidates_for_md md items root))

/-- The sort key of line 277: the top candidate's score, or `0` for a file
with no candidates. -/
def topScore (e : DocEntry) : Int :=
  match e.2 with
  | [] => 0
  | (s, _) :: _ => s

/-- The (stable, descending-by-top-score) ordering of line 277. -/
def docLe (a b : DocEntry) : Prop := topScore b ≤ topScore a

instance : DecidableRel docLe := fun a b => by
  unfold docLe
  infer_instance

instance : IsTotal DocEntry docLe :=
  ⟨fun a b => (le_total (topScore b) (topScore a)).imp id id⟩

instance : IsTrans DocEntry docLe :=
  ⟨fun _ _ _ hab hbc => le_trans hbc hab⟩

/-- `md_order` of line 277: `sorted(..., key=lambda kv: -(top score or 0))`.
Python's `sorted` is stable; `insertionSort` is stable for this total
preorder. -/
def md_order (entries : List DocEntry) : List DocEntry :=
  List.insertionSort docLe entries

/-- The greedy loop of lines 278-285: scan the candidate list for the first
catalog item whose index is not yet used; `used` is the set
`used_title_idxs`. -/
def resolveGo : List DocEntry → List Nat → List (MdPath × Option TitleItem)
  | [], _ => []
  | (p, cs) :: rest, used =>
    match cs.find? (fun c => ! used.contains c.2.idx) with
    | some c => (p, some c.2) :: resolveGo rest (used ++ [c.2.idx])
    | none => (p, none) :: resolveGo rest used

/-- The catalog-item indices selected by a run, in processing order. -/
def selIdxs (r : List (MdPath × Option TitleItem)) : List Nat :=
  r.filterMap (fun e => e.2.map (fun t => t.idx))

def mdB : MdPath := ⟨[("content".toList), ("x.md".toList)], "ab".toList⟩

def entriesW : List DocEntry := md_candidates [mdA, mdB] [itemA] ("content".toList)

/-! ### The report loop (main, lines 288-325) -/

/-- The dict lookup `md_candidates.get(md_path, [])` of line 324. -/
def lookupCands (entries : List DocEntry) (p : MdPath) : List (Int × TitleItem) :=
  match entries.find? (fun e => e.1 == p) with
  | some e => e.2
  | none => []

/-- The report loop of main (lines 294-325), restricted to the `miss` and
`ambiguous` accumulators (first and second component): an unassigned document
is appended to `miss` and the loop `continue`s before the ambiguity check; an
assigned one is flagged ambiguous when its candidate list has more than one
entry. -/
def reportLoop (assigned : List (MdPath × Option TitleItem))
    (entries : List DocEntry) : List MdPath × List MdPath :=
  match assigned with
  | [] => ([], [])
  | (p, none) :: rest =>
    let r := reportLoop rest entries
    (p :: r.1, r.2)
  | (p, some _) :: rest =>
    let r := reportLoop rest entries
    if 1 < (lookupCands entries p).length then (r.1, p :: r.2) else r

def itemT0 : TitleItem :=
  { idx := 0, row := [(("title".toList), ("ab".toList))], title := "ab".toList,
    norm := "ab".toList, slug := "ab".toList, category := [] }

def itemT1 : TitleItem :=
  { idx := 1, row := [(("title".toList), ("abc".toList))], title := "abc".toList,
    norm := "abc".toList, slug := "abc".toList, category := [] }

def mdAb : MdPath := ⟨[("content".toList), ("ab.md".toList)], "ab".toList⟩

def mdAbc : MdPath := ⟨[("content".toList), ("abc.md".toList)], "abc".toList⟩

def mdAbcd : MdPath := ⟨[("content".toList), ("abcd.md".toList)], "abcd".toList⟩

def entriesX : List DocEntry :=
  md_candidates [mdAb, mdAbc, mdAbcd] [itemT0, itemT1] ("content".toList)

/-! ### Tree builder (`tree_build.py`) -/

/-- A parsed front-matter dict of `tree_build.py`, after the scan loop added
the `path` and `name` keys (lines 71-72). -/
abbrev Meta := List (List Char × List Char)

/-- Python `meta.get(k)`. -/
def metaGet (m : Meta) (k : List Char) : Option (List Char) :=
  (m.find? (fun kv => kv.1 == k)).map (fun kv => kv.2)

/-- Python `meta.get(k, d)`: the default applies only when the key is absent. -/
def metaGetD (m : Meta) (k : List Char) (d : List Char) : List Char :=
  match m.find? (fun kv => kv.1 == k) with
  | some kv => kv.2
  | none => d

/-- Python truthiness of `meta.get(k)`: false for a missing key, `None`, or
an empty string. -/
def metaTruthy (m : Meta) (k : List Char) : Bool :=
  match metaGet m k with
  | some v => ! v.isEmpty
  | none => false

/-- `LEVEL_MAP` of `tree_build.py` (lines 11-16). -/
def LEVEL_MAP : List (List Char × List Char) :=
  [("1".toList, "法律".toList), ("2".toList, "行政法规".toList),
   ("3".toList, "司法解释".toList), ("4".toList, "部门规章".toList)]

/-- `level_to_name` of `tree_build.py` (lines 54-56). -/
def level_to_name (level_str : List Char) : List Char :=
  match LEVEL_MAP.find? (fun kv => kv.1 == pyStrip level_str) with
  | some kv => kv.2
  | none => "其他".toList

/-- A level-4 file node (lines 113-118). -/
structure FileNode where
  name : List Char
  path : List Char
  title : List Char
deriving DecidableEq

/-- A level-3 node grouping one `level` label (lines 108-110). -/
structure LevelNode where
  name : List Char
  files : List FileNode
deriving DecidableEq

/-- A level-2 category node (lines 94-97). -/
structure CatNode where
  name : List Char
  children : List LevelNode
deriving DecidableEq

/-- Lexicographic strictly-less on strings (Python `str` comparison by code
point). -/
def strLtB : List Char → List Char → Bool
  | [], [] => false
  | [], _ :: _ => true
  | _ :: _, [] => false
  | x :: xs, y :: ys =>
    if x.toNat < y.toNat then true
    else if y.toNat < x.toNat then false
    else strLtB xs ys

/-- Lexicographic less-or-equal on tuples of strings (Python tuple
comparison). -/
def keyLeB : List (List Char) → List (List Char) → Bool
  | [], _ => true
  | _ :: _, [] => false
  | a :: as, b :: bs =>
    if strLtB a b then true
    else if strLtB b a then false
    else keyLeB as bs

/-- The global sort key of lines 78-83:
`(category_code, level, catalog_key, sub_anchor)` with absent keys as `""`. -/
def treeSortKey (m : Meta) : List (List Char) :=
  [metaGetD m ("category_code".toList) [], metaGetD m ("level".toList) [],
   metaGetD m ("catalog_key".toList) [], metaGetD m ("sub_anchor".toList) []]

/-- The document ordering of the global sort. -/
def treeDocLe (a b : Meta) : Prop := keyLeB (treeSortKey a) (treeSortKey b) = true

instance : DecidableRel treeDocLe := fun a b => by
  unfold treeDocLe
  infer_instance

/-- The level-3 lookup-or-create plus file append of lines 102-119, on one
category's children. -/
def addFileToLevel : List LevelNode → List Char → FileNode → List LevelNode
  | [], lname, f => [⟨lname, [f]⟩]
  | l :: rest, lname, f =>
    if l.name = lname then ⟨l.name, l.files ++ [f]⟩ :: rest
    else l :: addFileToLevel rest lname f

/-- The level-2 lookup-or-create of lines 93-99 followed by the level-3/file
insertion.  `category_nodes` is a dict keyed by node name whose nodes sit in
`tree` in first-encounter order; node names in `tree` are unique, so the dict
lookup is the first (only) name match. -/
def addDoc : List CatNode → List Char → List Char → FileNode → List CatNode
  | [], cname, lname, f => [⟨cname, [⟨lname, [f]⟩]⟩]
  | c :: rest, cname, lname, f =>
    if c.name = cname then ⟨c.name, addFileToLevel c.children lname f⟩ :: rest
    else c :: addDoc rest cname lname f

/-- The per-document grouping loop of lines 89-119. -/
def build_tree_go : List Meta → List CatNode → List CatNode
  | [], tree => tree
  | d :: rest, tree =>
    build_tree_go rest (addDoc tree
      (metaGetD d ("category_name".toList) ("未分类".toList))
      (level_to_name (metaGetD d ("level".toList) []))
      ⟨metaGetD d ("name".toList) [],
        ("content/".toList) ++ metaGetD d ("path".toList) [],
        metaGetD d ("title".toList) (metaGetD d ("name".toList) [])⟩)

/-- `build_tree_safe` of `tree_build.py` (lines 58-122) over the already
parsed per-file metadata: filter out files missing a truthy `category_code`
or `level` (lines 66-69), sort globally by the fixed key tuple (Python's
stable sort, modelled by the stable `insertionSort`), then group. -/
def build_tree_safe (docs : List Meta) : List CatNode :=
  let included := docs.filter (fun d =>
    metaTruthy d ("category_code".toList) && metaTruthy d ("level".toList))
  build_tree_go (List.insertionSort treeDocLe included) []

/-- The `∃` pattern "document `f` sits in the tree under a level-2 node named
`cname` and a level-3 node named `lname`". -/
def groupedUnder (tree : List CatNode) (cname lname : List Char)
    (f : FileNode) : Prop :=
  ∃ c ∈ tree, c.name = cname ∧ ∃ l ∈ c.children, l.name = lname ∧ f ∈ l.files

def docY : Meta :=
  [(("category_code".toList), ("1".toList)), (("level".toList), ("1".toList)),
   (("category_name".toList), ([] : List Char)),
   (("name".toList), ("a.md".toList)), (("path".toList), ("a.md".toList)),
   (("title".toList), ("T".toList))]

def docZ : Meta :=
  [(("category_code".toList), ("1".toList)), (("level".toList), ("2".toList)),
   (("name".toList), ("b.md".toList)), (("path".toList), ("b.md".toList))]

/-! ### Markdown front-matter utilities (`assign_metadata_from_csv.py`,
lines 100-172) -/

/-- `FRONT_KEYS` of the source (lines 19-21). -/
def FRONT_KEYS : List (List Char) :=
  [("category_code".toList), ("category_name".toList), ("level".toList),
   ("catalog_key".toList), ("sub_anchor".toList), ("parent_key".toList),
   ("version_key".toList)]

/-- In-place dict update `meta[k] = v`: replace the value of an existing key,
else append (Python dicts keep the first-insertion position). -/
def upsert : Meta → List Char → List Char → Meta
  | [], k, v => [(k, v)]
  | kv :: rest, k, v =>
    if kv.1 = k then (k, v) :: rest else kv :: upsert rest k v

/-- Python `str.splitlines()` accumulator: split at line-break characters,
`"\r\n"` counting as one break, with no trailing empty line. -/
def pySplitlinesGo (acc : List Char) : List Char → List (List Char)
  | [] => if acc = [] then [] else [acc.reverse]
  | '\r' :: '\n' :: cs2 => acc.reverse :: pySplitlinesGo [] cs2
  | c :: cs =>
    if isLineBreak c then acc.reverse :: pySplitlinesGo [] cs
    else pySplitlinesGo (c :: acc) cs

/-- Python `str.splitlines()`. -/
def pySplitlines (s : List Char) : List (List Char) := pySplitlinesGo [] s

/-- The key-character class `[A-Za-z0-9_\-]` of the `parse_yaml` line regex
(line 122). -/
def isKeyChar (c : Char) : Bool :=
  (0x41 ≤ c.toNat && c.toNat ≤ 0x5a) || (0x61 ≤ c.toNat && c.toNat ≤ 0x7a) ||
  (0x30 ≤ c.toNat && c.toNat ≤ 0x39) || c.toNat == 0x5f || c.toNat == 0x2d

/-- One line of `parse_yaml` (line 122):
`re.match(r"\s*([A-Za-z0-9_\-]+)\s*:\s*(.*)\s*$", line)`.  A line matches iff
after optional whitespace a non-empty maximal run of key characters is
followed (after optional whitespace) by `:`; group 2 is the rest of the line
after the colon and the greedy `\s*` (the trailing `\s*$` matches empty). -/
def parseLine (line : List Char) : Option (List Char × List Char) :=
  let afterWs := line.dropWhile isWs
  let key := afterWs.takeWhile isKeyChar
  let rest := afterWs.dropWhile isKeyChar
  if key = [] then none
  else
    match rest.dropWhile isWs with
    | ':' :: v => some (key, v.dropWhile isWs)
    | _ => none

/-- A single or double quote, for `re.sub(r"^['\"]|['\"]$", "", v)`
(line 125). -/
def isQuoteChar (c : Char) : Bool := c.toNat == 0x27 || c.toNat == 0x22

/-- The `^['\"]` alternative of line 125: remove one leading quote
character. -/
def stripLeadingQuote : List Char → List Char
  | [] => []
  | c :: rest => if isQuoteChar c then rest else c :: rest

/-- The `['\"]$` alternative: remove one trailing quote character. -/
def stripTrailingQuote (v : List Char) : List Char :=
  match v.getLast? with
  | some c => if isQuoteChar c then v.dropLast else v
  | none => v

/-- `re.sub(r"^['\"]|['\"]$", "", v)` (line 125): remove one leading and one
trailing quote character (non-overlapping matches). -/
def stripQuotes (v : List Char) : List Char := stripTrailingQuote (stripLeadingQuote v)

/-- One line of the `parse_yaml` loop (lines 121-126): on a match store
`data[k] = ` the captured value, stripped and unquoted. -/
def parseStep (data : Meta) (line : List Char) : Meta :=
  match parseLine line with
  | some kv => upsert data kv.1 (stripQuotes (pyStrip kv.2))
  | none => data

/-- `parse_yaml` as the fold of `parseStep` over the lines. -/
def parse_yaml (s : List Char) : Meta :=
  (pySplitlines s).foldl parseStep []

/-- The quoting test of line 139: `re.search(r"[#:\s>\-\[\]\{\}]", sval)`. -/
def needsQuote (v : List Char) : Bool :=
  v.any (fun c => c.toNat == 0x23 || c.toNat == 0x3a || isWs c ||
    c.toNat == 0x3e || c.toNat == 0x2d || c.toNat == 0x5b || c.toNat == 0x5d ||
    c.toNat == 0x7b || c.toNat == 0x7d)

/-- `sval.replace('"', '\\"')` of line 140. -/
def escapeQuotes : List Char → List Char
  | [] => []
  | c :: cs =>
    if c.toNat == 0x22 then Char.ofNat 0x5c :: Char.ofNat 0x22 :: escapeQuotes cs
    else c :: escapeQuotes cs

/-- One `out.append(...)` line of `dump_yaml` (lines 138-143), for a key with
a non-empty value. -/
def dumpEntry (k v : List Char) : List Char :=
  if needsQuote v then
    k ++ (": ".toList) ++ (Char.ofNat 0x22 :: escapeQuotes v) ++ [Char.ofNat 0x22]
  else k ++ (": ".toList) ++ v

/-- The emission order `["title"] + FRONT_KEYS` of line 132. -/
def dumpKeys : List (List Char) := ("title".toList) :: FRONT_KEYS

/-- The emitted lines of `dump_yaml` (lines 130-143): keys in the fixed
order, skipping absent keys and empty values (values in a parsed/merged
`Meta` are always strings, so the `v is None` test cannot fire). -/
def dumpEntries (d : Meta) : List (List Char) :=
  dumpKeys.filterMap (fun k =>
    match metaGet d k with
    | none => none
    | some v => if v = [] then none else some (dumpEntry k v))

/-- `"\n".join(out)`. -/
def joinLines : List (List Char) → List Char
  | [] => []
  | [e] => e
  | e :: e2 :: es => e ++ '\n' :: joinLines (e2 :: es)

/-- `dump_yaml` of the source (lines 130-144): `"\n".join(out) + "\n"`. -/
def dump_yaml (d : Meta) : List Char := joinLines (dumpEntries d) ++ ['\n']

/-- `"---"`. -/
def dashes : List Char := ('-' :: '-' :: '-' :: [])

/-- The closing `\s*\n` of the strict fence regex (line 107), with the
backtracking priority of a greedy `\s*`: consume as much whitespace as
possible before the literal newline; returns the remainder (group 2). -/
def wsNlTail : List Char → Option (List Char)
  | [] => none
  | c :: cs =>
    if isWs c then
      match wsNlTail cs with
      | some r => some r
      | none => if c = '\n' then some cs else none
    else none

/-- The lazy `(.*?)\n---\s*\n` of the strict fence regex (line 107): the
shortest group 1 whose following `\n---` fence also completes `\s*\n`;
on a fence whose tail fails, the scan moves on (backtracking). -/
def fenceSearchGo (acc : List Char) : List Char → Option (List Char × List Char)
  | [] => none
  | c :: cs =>
    if c = '\n' ∧ dashes.isPrefixOf cs then
      match wsNlTail (cs.drop 3) with
      | some r => some (acc.reverse, r)
      | none => fenceSearchGo (c :: acc) cs
    else fenceSearchGo (c :: acc) cs

/-- The opening `\s*\n` of the strict fence regex after `^---`: greedy
whitespace, backtracking into the fence search. -/
def strictTail : List Char → Option (List Char × List Char)
  | [] => none
  | c :: cs =>
    if isWs c then
      match strictTail cs with
      | some r => some r
      | none => if c = '\n' then fenceSearchGo [] cs else none
    else none

/-- `re.match(r"^---\s*\n(.*?)\n---\s*\n(.*)\Z", text, flags=re.S)` of
line 107: returns (group 1, group 2) on a match. -/
def strictMatch (text : List Char) : Option (List Char × List Char) :=
  if dashes.isPrefixOf text then strictTail (text.drop 3) else none

/-- The `\s*$` tail of the loose pattern `^---\s*$` (line 111), multiline:
greedy whitespace, then end of string or a following (unconsumed) newline;
returns the remainder from the match end. -/
def looseTail : List Char → Option (List Char)
  | [] => some []
  | c :: cs =>
    if isWs c then
      match looseTail cs with
      | some r => some r
      | none => if c = '\n' then some (c :: cs) else none
    else if c = '\n' then some (c :: cs) else none

/-- The scan of `re.split(r"^---\s*$", ..., flags=re.M)` for the leftmost
match at a line start: returns (text before the match, text after it). -/
def looseScanGo (acc : List Char) (atLineStart : Bool) :
    List Char → Option (List Char × List Char)
  | [] => none
  | c :: cs =>
    if atLineStart ∧ dashes.isPrefixOf (c :: cs) then
      match looseTail ((c :: cs).drop 3) with
      | some r => some (acc.reverse, r)
      | none => looseScanGo (c :: acc) (c = '\n') cs
    else looseScanGo (c :: acc) (c = '\n') cs

/-- `re.split(r"^---\s*$", text, maxsplit=2, flags=re.M)` (line 111).  After
a first match, the remainder starts with the unconsumed newline the `$`
matched before (or is empty), so no second match can start at that exact
position and `atLineStart := false` is sound. -/
def looseParts (text : List Char) : List (List Char) :=
  match looseScanGo [] true text with
  | none => [text]
  | some (p0, r1) =>
    match looseScanGo [] false r1 with
    | none => [p0, r1]
    | some (p1, r2) => [p0, p1, r2]

/-- `split_front_matter` of the source (lines 104-114): strict fenced match
first, else the loose `re.split` fallback needing at least 3 parts, else no
header.  `(some yaml, body)` models the `("yaml", ..., ...)` returns and
`(none, text)` models `(None, None, text)`. -/
def split_front_matter (text : List Char) : Option (List Char) × List Char :=
  if dashes.isPrefixOf text then
    match strictMatch text with
    | some g => (some g.1, g.2)
    | none =>
      match looseParts text with
      | _ :: y :: b :: _ => (some y, b)
      | _ => (none, text)
  else (none, text)

/-- The metadata payload handed to `ensure_front_matter` (main, lines
299-308): a dict whose values may be Python `None` (`some none` entry) or
absent. -/
abbrev Assign := List (List Char × Option (List Char))

/-- Python `k in assign` plus `assign[k]`. -/
def assignGet (a : Assign) (k : List Char) : Option (Option (List Char)) :=
  (a.find? (fun kv => kv.1 == k)).map (fun kv => kv.2)

/-- One iteration of the update loop of `ensure_front_matter` (lines
158-165): if `assign` holds a non-`None` non-empty value for `k` that differs
from `meta.get(k)`, set it and record a change. -/
def applyStep (assign : Assign) (st : Meta × Bool) (k : List Char) :
    Meta × Bool :=
  match assignGet assign k with
  | some (some v) =>
    if v = [] then st
    else
      match metaGet st.1 k with
      | some old => if old = v then st else (upsert st.1 k v, true)
      | none => (upsert st.1 k v, true)
  | _ => st

/-- The whole update loop, folding `applyStep` over the key order. -/
def applyAssignGo (assign : Assign) (keys : List (List Char))
    (st : Meta × Bool) : Meta × Bool :=
  keys.foldl (applyStep assign) st

/-- Lines 158-165 with the source's key order. -/
def applyAssign (meta : Meta) (assign : Assign) : Meta × Bool :=
  applyAssignGo assign (FRONT_KEYS ++ [("title".toList)]) (meta, false)

/-- The `meta` of `ensure_front_matter` (lines 150-155): the parsed header
when one was recognized, `{}` otherwise. -/
def mergeMeta (text : List Char) : Meta :=
  match (split_front_matter text).1 with
  | some y => parse_yaml y
  | none => []

/-- The `body` of `ensure_front_matter` (lines 150-155): the split body when a
header was recognized, the whole text otherwise. -/
def mergeBody (text : List Char) : List Char :=
  match (split_front_matter text).1 with
  | some _ => (split_front_matter text).2
  | none => text

/-- Line 167: `"---\n" + dump_yaml(meta) + "---\n" + body.lstrip()`. -/
def mergeNewText (text : List Char) (assign : Assign) : List Char :=
  dashes ++ '\n' :: (dump_yaml (applyAssign (mergeMeta text) assign).1 ++
    (dashes ++ '\n' :: pyLstrip (mergeBody text)))

/-- `ensure_front_matter` of the source (lines 147-172), on the file's text:
split any front matter, apply the updates, rebuild the new text, and report
`(True, new_text)` only when a field changed and the text differs;
`(False, text)` otherwise (the caller writes the file only in the former
case). -/
def ensure_front_matter (text : List Char) (assign : Assign) : Bool × List Char :=
  if (applyAssign (mergeMeta text) assign).2 = true ∧ mergeNewText text assign ≠ text
  then (true, mergeNewText text assign) else (false, text)

/-- Lines 310-314 of main: the `changed` flag recorded per file —
unconditionally `True` in dry-run mode (`# simulate change detection`), the
merge's flag otherwise. -/
def reportedChanged (dry_run : Bool) (text : List Char) (assign : Assign) : Bool :=
  if dry_run then true else (ensure_front_matter text assign).1

/-- `key: value` line presence: some line start (the text start or a position
right after a newline) from which `k ++ ": "` reads off. -/
def hasKeyLine (s k : List Char) : Bool :=
  (List.range (s.length + 1)).any (fun i =>
    (decide (i = 0) || (s[i-1]? == some '\n')) &&
      (k ++ (": ".toList)).isPrefixOf (s.drop i))

def textC1 : List Char := "---\ntitle: A\ncategory_code: 1\n---\nx".toList

def assignC1 : Assign :=
  [(("title".toList), some ("A".toList)),
   (("category_code".toList), some ("1".toList)),
   (("category_name".toList), none), (("level".toList), none),
   (("catalog_key".toList), none), (("sub_anchor".toList), none),
   (("parent_key".toList), none), (("version_key".toList), none)]

def textC2 : List Char := "body".toList

def assignC2 : Assign :=
  [(("title".toList), some ("T".toList)),
   (("category_code".toList), some ("X".toList)),
   (("category_name".toList), some ([] : List Char)),
   (("level".toList), some ([] : List Char)),
   (("catalog_key".toList), some ([] : List Char)),
   (("sub_anchor".toList), some ([] : List Char)),
   (("parent_key".toList), some ([] : List Char)),
   (("version_key".toList), some ([] : List Char))]

def textC3 : List Char := "---\ncategory_name: a \"b\n---\nbody".toList

def assignC3 : Assign := [(("category_code".toList), some ("\"X".toList))]

/-- A value that round-trips through `dump_yaml` and `parse_yaml`: no double
quote, no line-break character, and no single quote at either end. -/
def goodVal (v : List Char) : Bool :=
  v.all (fun c => !(c.toNat == 0x22) && ! isLineBreak c) &&
  (match v.head? with | some c => !(c.toNat == 0x27) | none => true) &&
  (match v.getLast? with | some c => !(c.toNat == 0x27) | none => true)

/-- No line-break character. -/
def noBreak (l : List Char) : Bool := l.all (fun c => ! isLineBreak c)

/-- A first character that is neither whitespace nor a dash. -/
def goodHead : List Char → Bool
  | [] => false
  | c :: _ => ! isWs c && !(c == '-')

/-- No leading whitespace (the shape of an `lstrip` result). -/
def bodyOk : List Char → Bool
  | [] => true
  | b :: _ => ! isWs b

/-- Guard for one position: a newline must be followed by a non-dash
character. -/
def nlOk (c : Char) (cs : List Char) : Bool :=
  if c = '\n' then
    match cs.head? with
    | none => false
    | some d => !(d == '-')
  else true

/-- No newline immediately followed by a dash, and no trailing newline: such
a text cannot contain (or border) a `\n---` fence start. -/
def fenceFree : List Char → Bool
  | [] => true
  | c :: cs => nlOk c cs && fenceFree cs

def textW : List Char := "hello".toList

def assignW : Assign := [(("category_code".toList), some ("1".toList))]

theorem toNat_ofNat_valid {n : Nat} (h : n < 0xd800) : (Char.ofNat n).toNat = n := by
  have hv : n.isValidChar := Or.inl h
  rw [Char.ofNat, dif_pos hv]
  rfl

theorem isWs_not_keep {c : Char} (h : isWs c = true) : isKeepChar c = false := by
  simp only [isWs, Bool.or_eq_true, Bool.and_eq_true, decide_eq_true_eq,
    beq_iff_eq] at h
  simp only [isKeepChar, Bool.or_eq_false_iff, Bool.and_eq_false_iff,
    decide_eq_false_iff_not]
  omega

theorem filter_keep_collapse (b : Bool) (s : List Char) :
    (collapseWsAux b s).filter isKeepChar = s.filter isKeepChar := by
  induction s generalizing b with
  | nil => cases b <;> rfl
  | cons c cs ih =>
    by_cases h : isWs c = true
    · have hk := isWs_not_keep h
      have hsp : isKeepChar (Char.ofNat 0x20) = false := by decide
      cases b <;>
        simp only [collapseWsAux, h, if_true, List.filter_cons, hk, hsp,
          Bool.false_eq_true, if_false, ih]
    · have h' : isWs c = false := by
        cases hh : isWs c
        · rfl
        · exact absurd hh h
      cases b <;>
        simp only [collapseWsAux, h', Bool.false_eq_true, if_false,
          List.filter_cons, ih]

theorem filter_keep_dropWhile (s : List Char) :
    (s.dropWhile isWs).filter isKeepChar = s.filter isKeepChar := by
  induction s with
  | nil => rfl
  | cons c cs ih =>
    rw [List.dropWhile_cons]
    by_cases h : isWs c = true
    · rw [if_pos h, ih, List.filter_cons, isWs_not_keep h]
      simp
    · rw [if_neg h]

theorem filter_keep_pyRstrip (s : List Char) :
    (pyRstrip s).filter isKeepChar = s.filter isKeepChar := by
  rw [pyRstrip, List.filter_reverse, filter_keep_dropWhile, List.filter_reverse,
    List.reverse_reverse]

theorem filter_keep_pyStrip (s : List Char) :
    (pyStrip s).filter isKeepChar = s.filter isKeepChar := by
  rw [pyStrip, filter_keep_pyRstrip, pyLstrip, filter_keep_dropWhile]

theorem normalize_some_eq (s : List Char) :
    normalize_title (some s) = (s.map foldChar).filter isKeepChar := by
  show (collapseWs (pyStrip (pyCasefold (nfkc s)))).filter isKeepChar = _
  rw [collapseWs, filter_keep_collapse, filter_keep_pyStrip, pyCasefold, nfkc,
    List.map_map]
  rfl

theorem isWs_foldChar {c : Char} (h : isWs c = true) : isWs (foldChar c) = true := by
  have hn : isWs (nfkcChar c) = true := by
    simp only [isWs, Bool.or_eq_true, Bool.and_eq_true, decide_eq_true_eq,
      beq_iff_eq] at h
    rw [nfkcChar]
    by_cases h1 : 0xff01 ≤ c.toNat ∧ c.toNat ≤ 0xff5e
    · exact absurd h1 (by omega)
    · rw [if_neg h1]
      by_cases h2 : c.toNat = 0x3000
      · rw [if_pos h2]
        decide
      · rw [if_neg h2]
        simp only [isWs, Bool.or_eq_true, Bool.and_eq_true, decide_eq_true_eq,
          beq_iff_eq]
        omega
  rw [foldChar, casefoldChar]
  by_cases h3 : 0x41 ≤ (nfkcChar c).toNat ∧ (nfkcChar c).toNat ≤ 0x5a
  · exfalso
    simp only [isWs, Bool.or_eq_true, Bool.and_eq_true, decide_eq_true_eq,
      beq_iff_eq] at hn
    omega
  · rw [if_neg h3]
    exact hn

theorem filter_keep_map_fold_filter_ws (s : List Char) :
    (s.map foldChar).filter isKeepChar
      = ((s.filter (fun c => ! isWs c)).map foldChar).filter isKeepChar := by
  induction s with
  | nil => rfl
  | cons c cs ih =>
    by_cases h : isWs c = true
    · rw [List.map_cons, List.filter_cons, isWs_not_keep (isWs_foldChar h),
        List.filter_cons]
      simp only [h, Bool.not_true, Bool.false_eq_true, if_false, ih]
    · have h' : isWs c = false := by
        cases hh : isWs c
        · rfl
        · exact absurd hh h
      rw [List.map_cons, List.filter_cons, List.filter_cons]
      simp only [h', Bool.not_false, if_true, List.map_cons, List.filter_cons, ih]

/-- Claim C4: `normalize_title` is a pure total function (it is defined as a
total Lean function over every input, with the null input modelled by `none`);
empty or null input yields the empty key; and two titles that agree after
full-width/half-width and case folding and deletion of all whitespace
normalize to the same key. -/
theorem normalize_title_total_empty_and_equiv :
    normalize_title none = [] ∧ normalize_title (some []) = [] ∧
    ∀ s t : List Char,
      (s.filter (fun c => ! isWs c)).map foldChar
        = (t.filter (fun c => ! isWs c)).map foldChar →
      normalize_title (some s) = normalize_title (some t) := by
  refine ⟨rfl, rfl, fun s t h => ?_⟩
  rw [normalize_some_eq, normalize_some_eq, filter_keep_map_fold_filter_ws s,
    filter_keep_map_fold_filter_ws t, h]

theorem normalize_title_equiv_witness :
    ((("Ａ　Ｂ".toList).filter (fun c => ! isWs c)).map foldChar
       = (("a b".toList).filter (fun c => ! isWs c)).map foldChar) ∧
    normalize_title (some ("Ａ　Ｂ".toList)) = normalize_title (some ("a b".toList)) :=
  ⟨by decide, normalize_title_total_empty_and_equiv.2.2 _ _ (by decide)⟩

theorem foldChar_not_upper (c : Char) :
    ¬(0x41 ≤ (foldChar c).toNat ∧ (foldChar c).toNat ≤ 0x5a) := by
  rw [foldChar, casefoldChar]
  by_cases h : 0x41 ≤ (nfkcChar c).toNat ∧ (nfkcChar c).toNat ≤ 0x5a
  · rw [if_pos h, toNat_ofNat_valid (by omega)]
    omega
  · rw [if_neg h]
    exact h

theorem foldChar_fix_of_keep {c : Char} (hk : isKeepChar c = true)
    (hu : ¬(0x41 ≤ c.toNat ∧ c.toNat ≤ 0x5a)) : foldChar c = c := by
  simp only [isKeepChar, Bool.or_eq_true, Bool.and_eq_true, decide_eq_true_eq] at hk
  have h1 : nfkcChar c = c := by
    rw [nfkcChar, if_neg (by omega), if_neg (by omega)]
  rw [foldChar, h1, casefoldChar, if_neg hu]

theorem map_foldChar_fix (l : List Char) (h : ∀ c ∈ l, foldChar c = c) :
    l.map foldChar = l := by
  induction l with
  | nil => rfl
  | cons c cs ih =>
    rw [List.map_cons, h c (List.mem_cons_self c cs),
      ih (fun d hd => h d (List.mem_cons_of_mem c hd))]

/-- Claim C10: `normalize_title` is idempotent — renormalizing an already
normalized key returns it unchanged. -/
theorem normalize_title_idempotent (s : Option (List Char)) :
    normalize_title (some (normalize_title s)) = normalize_title s := by
  cases s with
  | none => rfl
  | some s =>
    rw [normalize_some_eq s, normalize_some_eq]
    have hfix : ∀ c ∈ (s.map foldChar).filter isKeepChar, foldChar c = c := by
      intro c hc
      rcases List.mem_filter.mp hc with ⟨hmem, hkeep⟩
      rcases List.mem_map.mp hmem with ⟨c0, _, rfl⟩
      exact foldChar_fix_of_keep hkeep (foldChar_not_upper c0)
    rw [map_foldChar_fix _ hfix]
    exact List.filter_eq_self.mpr fun a ha => (List.mem_filter.mp ha).2

theorem mem_best_candidates (md : MdPath) (items : List TitleItem)
    (root : List Char) (s : Int) (t : TitleItem) :
    (s, t) ∈ best_candidates_for_md md items root ↔
      (t ∈ items ∧ t.norm ≠ [] ∧ normalize_title (some md.stem) ≠ [] ∧
        (t.norm = normalize_title (some md.stem) ∨
         t.norm <:+: normalize_title (some md.stem) ∨
         normalize_title (some md.stem) <:+: t.norm) ∧
        s = candScore (normalize_title (some md.stem)) (mdCatOf md root) t) := by
  rw [best_candidates_for_md]
  simp only [List.mem_insertionSort, List.mem_filterMap]
  constructor
  · rintro ⟨a, ha, hfa⟩
    by_cases h1 : a.norm = [] ∨ normalize_title (some md.stem) = []
    · rw [if_pos h1] at hfa
      exact absurd hfa (by simp)
    · rw [if_neg h1] at hfa
      by_cases h2 : a.norm = normalize_title (some md.stem) ∨
          a.norm <:+: normalize_title (some md.stem) ∨
          normalize_title (some md.stem) <:+: a.norm
      · rw [if_pos h2] at hfa
        obtain ⟨hs, hteq⟩ := Prod.mk.injEq .. ▸ Option.some.injEq .. ▸ hfa
        push_neg at h1
        subst hteq
        exact ⟨ha, h1.1, h1.2, h2, hs.symm⟩
      · rw [if_neg h2] at hfa
        exact absurd hfa (by simp)
  · rintro ⟨ha, h1, h2, h3, hs⟩
    refine ⟨t, ha, ?_⟩
    rw [if_neg (by tauto), if_pos h3, hs]

/-- Claim C5 (amended): a catalog item appears in a document's candidate list
iff both normalized keys are non-empty and they are equal or one is a
substring of the other. -/
theorem scorer_membership_iff (md : MdPath) (items : List TitleItem)
    (root : List Char) (t : TitleItem) (ht : t ∈ items) :
    (∃ s, (s, t) ∈ best_candidates_for_md md items root) ↔
      (t.norm ≠ [] ∧ normalize_title (some md.stem) ≠ [] ∧
        (t.norm = normalize_title (some md.stem) ∨
         t.norm <:+: normalize_title (some md.stem) ∨
         normalize_title (some md.stem) <:+: t.norm)) := by
  constructor
  · rintro ⟨s, hs⟩
    obtain ⟨-, h1, h2, h3, -⟩ := (mem_best_candidates md items root s t).mp hs
    exact ⟨h1, h2, h3⟩
  · rintro ⟨h1, h2, h3⟩
    exact ⟨candScore (normalize_title (some md.stem)) (mdCatOf md root) t,
      (mem_best_candidates md items root _ t).mpr ⟨ht, h1, h2, h3, rfl⟩⟩

/-- Claim C5, as stated, is false: a catalog item whose normalized key is
empty (title `"!!"`) is a substring of the document key `"a"`, yet the
candidate list is empty. -/
theorem scorer_counterexample :
    ([] : List Char) <:+: normalize_title (some ("a".toList)) ∧
    (build_title_items [[(("title".toList), ("!!".toList))]]).map TitleItem.norm
      = [[]] ∧
    best_candidates_for_md ⟨[("content".toList), ("a.md".toList)], "a".toList⟩
      (build_title_items [[(("title".toList), ("!!".toList))]])
      ("content".toList) = [] := by
  refine ⟨⟨[], normalize_title (some ("a".toList)), rfl⟩, by decide, by decide⟩

theorem scorer_membership_iff_witness :
    itemA ∈ [itemA] ∧
    ((∃ s, (s, itemA) ∈ best_candidates_for_md mdA [itemA] ("content".toList)) ↔
      (itemA.norm ≠ [] ∧ normalize_title (some mdA.stem) ≠ [] ∧
        (itemA.norm = normalize_title (some mdA.stem) ∨
         itemA.norm <:+: normalize_title (some mdA.stem) ∨
         normalize_title (some mdA.stem) <:+: itemA.norm))) :=
  ⟨by decide, scorer_membership_iff mdA [itemA] ("content".toList) itemA (by decide)⟩

theorem score_bounds_aux (md : MdPath) (items : List TitleItem)
    (root : List Char) (s : Int) (t : TitleItem)
    (h : (s, t) ∈ best_candidates_for_md md items root) :
    500 ≤ s ∧ s ≤ 1200 ∧ (t.norm = normalize_title (some md.stem) → 1100 ≤ s) := by
  obtain ⟨-, -, -, -, hs⟩ := (mem_best_candidates md items root s t).mp h
  subst hs
  rw [candScore]
  set d : Int := (((t.norm.length : Int) - ((normalize_title (some md.stem)).length : Int)).natAbs : Int) with hd
  have hd0 : 0 ≤ d := by positivity
  have hmax1 : 0 ≤ max 0 (100 - d) := le_max_left 0 _
  have hmax2 : max 0 (100 - d) ≤ 100 := max_le (by norm_num) (by omega)
  refine ⟨?_, ?_, ?_⟩
  · split_ifs <;> omega
  · split_ifs <;> omega
  · intro heq
    rw [if_pos heq]
    have : d = 0 := by
      rw [hd, heq]
      simp
    split_ifs <;> omega

/-- Claim C9: every candidate score is between 500 and 1200, and an exact
normalized-key match scores at least 1100. -/
theorem candidate_score_bounds (md : MdPath) (items : List TitleItem)
    (root : List Char) (s : Int) (t : TitleItem)
    (h : (s, t) ∈ best_candidates_for_md md items root) :
    500 ≤ s ∧ s ≤ 1200 ∧ (t.norm = normalize_title (some md.stem) → 1100 ≤ s) :=
  score_bounds_aux md items root s t h

theorem candidate_score_bounds_witness :
    ((1100 : Int), itemA) ∈ best_candidates_for_md mdA [itemA] ("content".toList) ∧
    (500 ≤ (1100 : Int) ∧ (1100 : Int) ≤ 1200 ∧
      (itemA.norm = normalize_title (some mdA.stem) → 1100 ≤ (1100 : Int))) :=
  ⟨by decide, candidate_score_bounds mdA [itemA] ("content".toList) 1100 itemA (by decide)⟩

theorem selIdxs_cons_some (p : MdPath) (t : TitleItem)
    (r : List (MdPath × Option TitleItem)) :
    selIdxs ((p, some t) :: r) = t.idx :: selIdxs r := rfl

theorem selIdxs_cons_none (p : MdPath) (r : List (MdPath × Option TitleItem)) :
    selIdxs ((p, none) :: r) = selIdxs r := rfl

theorem resolveGo_length (l : List DocEntry) (used : List Nat) :
    (resolveGo l used).length = l.length := by
  induction l generalizing used with
  | nil => rfl
  | cons e rest ih =>
    obtain ⟨p, cs⟩ := e
    cases hf : cs.find? (fun c => ! used.contains c.2.idx) with
    | none =>
      simp only [resolveGo]
      rw [hf]
      simp [ih]
    | some c =>
      simp only [resolveGo]
      rw [hf]
      simp [ih]

theorem resolveGo_selIdxs_fresh : ∀ (l : List DocEntry) (used : List Nat),
    (selIdxs (resolveGo l used)).Nodup ∧
    ∀ i ∈ selIdxs (resolveGo l used), i ∉ used
  | [], _ => ⟨List.nodup_nil, by intro i hi; cases hi⟩
  | (p, cs) :: rest, used => by
    cases hf : cs.find? (fun c => ! used.contains c.2.idx) with
    | none =>
      have ih := resolveGo_selIdxs_fresh rest used
      simp only [resolveGo]
      rw [hf]
      simpa only [selIdxs_cons_none] using ih
    | some c =>
      have ih := resolveGo_selIdxs_fresh rest (used ++ [c.2.idx])
      have hfc := List.find?_some hf
      have hfresh : c.2.idx ∉ used := by
        simpa using hfc
      simp only [resolveGo]
      rw [hf]
      simp only [selIdxs_cons_some]
      constructor
      · refine List.nodup_cons.mpr ⟨?_, ih.1⟩
        intro hmem
        have h2 := ih.2 _ hmem
        simp at h2
      · intro i hi
        rcases List.mem_cons.mp hi with rfl | hi'
        · exact hfresh
        · have h2 := ih.2 _ hi'
          intro hiu
          exact h2 (List.mem_append_left _ hiu)

theorem resolveGo_get? : ∀ (l : List DocEntry) (used : List Nat) (n : Nat)
    (hn : n < l.length),
    (resolveGo l used)[n]? =
      some ((l.get ⟨n, hn⟩).1,
        ((l.get ⟨n, hn⟩).2.find? (fun c =>
          ! (used ++ selIdxs ((resolveGo l used).take n)).contains c.2.idx)).map
          (fun c => c.2))
  | [], _, n, hn => absurd hn (by simp)
  | (p, cs) :: rest, used, 0, _ => by
    cases hf : cs.find? (fun c => ! used.contains c.2.idx) with
    | none =>
      simp only [resolveGo, hf, List.take_zero, selIdxs, List.filterMap_nil,
        List.append_nil, List.getElem?_cons_zero, List.get]
      rfl
    | some c =>
      simp only [resolveGo, hf, List.take_zero, selIdxs, List.filterMap_nil,
        List.append_nil, List.getElem?_cons_zero, List.get]
      rfl
  | (p, cs) :: rest, used, n + 1, hn => by
    have hn' : n < rest.length := by
      simpa using hn
    cases hf : cs.find? (fun c => ! used.contains c.2.idx) with
    | none =>
      have ih := resolveGo_get? rest used n hn'
      simp only [resolveGo, hf, List.getElem?_cons_succ, List.take_succ_cons,
        selIdxs_cons_none, List.get]
      exact ih
    | some c =>
      have ih := resolveGo_get? rest (used ++ [c.2.idx]) n hn'
      simp only [resolveGo, hf, List.getElem?_cons_succ, List.take_succ_cons,
        selIdxs_cons_some, List.get]
      rw [ih]
      rw [List.append_assoc, List.singleton_append]

/-- Claim C6: one resolution run yields a matching — the selected
catalog-item indices are pairwise distinct; the processing order is a
permutation of the candidate map, sorted descending by top-candidate score
with no-candidate documents after every candidate-bearing document; and each
document takes the first catalog item of its candidate list not used by an
earlier document, being unassigned exactly when that scan finds none. -/
theorem resolver_run_matching (mds : List MdPath) (items : List TitleItem)
    (root : List Char) :
    (selIdxs (resolveGo (md_order (md_candidates mds items root)) [])).Nodup ∧
    List.Perm (md_order (md_candidates mds items root)) (md_candidates mds items root) ∧
    List.Pairwise (fun a b => topScore b ≤ topScore a ∧ (a.2 = [] → b.2 = []))
      (md_order (md_candidates mds items root)) ∧
    ∀ n (hn : n < (md_order (md_candidates mds items root)).length),
      (resolveGo (md_order (md_candidates mds items root)) [])[n]? =
        some (((md_order (md_candidates mds items root)).get ⟨n, hn⟩).1,
          (((md_order (md_candidates mds items root)).get ⟨n, hn⟩).2.find?
            (fun c => ! (selIdxs ((resolveGo (md_order (md_candidates mds items root))
              []).take n)).contains c.2.idx)).map (fun c => c.2)) := by
  refine ⟨(resolveGo_selIdxs_fresh _ []).1, List.perm_insertionSort docLe _, ?_, ?_⟩
  · have hsorted : List.Pairwise docLe (md_order (md_candidates mds items root)) :=
      List.sorted_insertionSort docLe (md_candidates mds items root)
    refine hsorted.imp_of_mem ?_
    intro a b ha hb hab
    refine ⟨hab, fun hae => ?_⟩
    by_contra hbne
    have hb' : b ∈ md_candidates mds items root :=
      (List.perm_insertionSort docLe _).mem_iff.mp hb
    obtain ⟨mdb, -, hbeq⟩ := List.mem_map.mp hb'
    cases hb2 : b.2 with
    | nil => exact hbne hb2
    | cons c crest =>
      obtain ⟨s, t⟩ := c
      have hcmem : (s, t) ∈ best_candidates_for_md mdb items root := by
        have : (s, t) ∈ b.2 := by
          rw [hb2]
          exact List.mem_cons_self _ _
        rw [← hbeq] at this
        exact this
      have h500 := (score_bounds_aux mdb items root s t hcmem).1
      have htb : topScore b = s := by
        rw [topScore, hb2]
      have hta : topScore a = 0 := by
        rw [topScore, hae]
      rw [docLe, htb, hta] at hab
      omega
  · intro n hn
    exact resolveGo_get? (md_order (md_candidates mds items root)) [] n hn

theorem resolver_run_matching_witness :
    (0 < (md_order entriesW).length) ∧
    (selIdxs (resolveGo (md_order entriesW) [])).Nodup ∧
    (resolveGo (md_order entriesW) [])[0]? =
      some (((md_order entriesW).get ⟨0, by decide⟩).1,
        (((md_order entriesW).get ⟨0, by decide⟩).2.find?
          (fun c => ! (selIdxs ((resolveGo (md_order entriesW) []).take 0)).contains
            c.2.idx)).map (fun c => c.2)) :=
  ⟨by decide, (resolver_run_matching [mdA, mdB] [itemA] ("content".toList)).1,
    (resolver_run_matching [mdA, mdB] [itemA] ("content".toList)).2.2.2 0 (by decide)⟩

/-- Claim C7 (amended): a document is flagged ambiguous iff it received an
assignment and its candidate list has more than one entry; an unassigned
document is never flagged. -/
theorem ambiguous_iff (assigned : List (MdPath × Option TitleItem))
    (entries : List DocEntry) (p : MdPath) :
    p ∈ (reportLoop assigned entries).2 ↔
      ((∃ t, (p, some t) ∈ assigned) ∧ 1 < (lookupCands entries p).length) := by
  induction assigned with
  | nil =>
    simp [reportLoop]
  | cons e rest ih =>
    obtain ⟨q, sel⟩ := e
    cases sel with
    | none =>
      rw [reportLoop]
      constructor
      · intro hm
        obtain ⟨⟨t, hmem⟩, hlen⟩ := ih.mp hm
        exact ⟨⟨t, List.mem_cons_of_mem _ hmem⟩, hlen⟩
      · rintro ⟨⟨t, hmem⟩, hlen⟩
        rcases List.mem_cons.mp hmem with heq | hmem'
        · exact absurd heq (by simp)
        · exact ih.mpr ⟨⟨t, hmem'⟩, hlen⟩
    | some t0 =>
      rw [reportLoop]
      by_cases hq : 1 < (lookupCands entries q).length
      · rw [if_pos hq]
        constructor
        · intro hm
          rcases List.mem_cons.mp hm with rfl | hm'
          · exact ⟨⟨t0, List.mem_cons_self _ _⟩, hq⟩
          · obtain ⟨⟨t, hmem⟩, hlen⟩ := ih.mp hm'
            exact ⟨⟨t, List.mem_cons_of_mem _ hmem⟩, hlen⟩
        · rintro ⟨⟨t, hmem⟩, hlen⟩
          rcases List.mem_cons.mp hmem with heq | hmem'
          · obtain ⟨rfl, -⟩ := Prod.mk.injEq .. ▸ heq
            exact List.mem_cons_self _ _
          · exact List.mem_cons_of_mem _ (ih.mpr ⟨⟨t, hmem'⟩, hlen⟩)
      · rw [if_neg hq]
        constructor
        · intro hm
          obtain ⟨⟨t, hmem⟩, hlen⟩ := ih.mp hm
          exact ⟨⟨t, List.mem_cons_of_mem _ hmem⟩, hlen⟩
        · rintro ⟨⟨t, hmem⟩, hlen⟩
          rcases List.mem_cons.mp hmem with heq | hmem'
          · obtain ⟨rfl, -⟩ := Prod.mk.injEq .. ▸ heq
            exact absurd hlen hq
          · exact ih.mpr ⟨⟨t, hmem'⟩, hlen⟩

/-- Claim C7, as stated, is false: in this run the document `abcd.md` has two
candidates, ends up unassigned (both catalog items are taken by
higher-scoring documents), and is not flagged ambiguous. -/
theorem ambiguous_flag_counterexample :
    1 < (lookupCands entriesX mdAbcd).length ∧
    (mdAbcd, (none : Option TitleItem)) ∈ resolveGo (md_order entriesX) [] ∧
    mdAbcd ∉ (reportLoop (resolveGo (md_order entriesX) []) entriesX).2 := by
  refine ⟨by decide, by decide, by decide⟩

theorem addFileToLevel_adds (ls : List LevelNode) (lname : List Char)
    (f : FileNode) :
    ∃ l ∈ addFileToLevel ls lname f, l.name = lname ∧ f ∈ l.files := by
  induction ls with
  | nil =>
    exact ⟨⟨lname, [f]⟩, List.mem_singleton_self _, rfl, List.mem_singleton_self _⟩
  | cons l rest ih =>
    by_cases h : l.name = lname
    · rw [addFileToLevel, if_pos h]
      exact ⟨⟨l.name, l.files ++ [f]⟩, List.mem_cons_self _ _, h,
        List.mem_append_right _ (List.mem_singleton_self _)⟩
    · rw [addFileToLevel, if_neg h]
      obtain ⟨l', hl', hn, hf⟩ := ih
      exact ⟨l', List.mem_cons_of_mem _ hl', hn, hf⟩

theorem addFileToLevel_keeps (ls : List LevelNode) (lname : List Char)
    (f : FileNode) {y : List Char} {g : FileNode}
    (h : ∃ l ∈ ls, l.name = y ∧ g ∈ l.files) :
    ∃ l ∈ addFileToLevel ls lname f, l.name = y ∧ g ∈ l.files := by
  induction ls with
  | nil => exact absurd h (by simp)
  | cons l rest ih =>
    obtain ⟨l0, hl0, hn0, hg0⟩ := h
    by_cases h1 : l.name = lname
    · rw [addFileToLevel, if_pos h1]
      rcases List.mem_cons.mp hl0 with rfl | hmem
      · exact ⟨⟨l0.name, l0.files ++ [f]⟩, List.mem_cons_self _ _, hn0,
          List.mem_append_left _ hg0⟩
      · exact ⟨l0, List.mem_cons_of_mem _ hmem, hn0, hg0⟩
    · rw [addFileToLevel, if_neg h1]
      rcases List.mem_cons.mp hl0 with rfl | hmem
      · exact ⟨l0, List.mem_cons_self _ _, hn0, hg0⟩
      · obtain ⟨l', hl', hn', hg'⟩ := ih ⟨l0, hmem, hn0, hg0⟩
        exact ⟨l', List.mem_cons_of_mem _ hl', hn', hg'⟩

theorem addDoc_adds (tree : List CatNode) (cname lname : List Char)
    (f : FileNode) : groupedUnder (addDoc tree cname lname f) cname lname f := by
  induction tree with
  | nil =>
    exact ⟨⟨cname, [⟨lname, [f]⟩]⟩, List.mem_singleton_self _, rfl,
      ⟨lname, [f]⟩, List.mem_singleton_self _, rfl, List.mem_singleton_self _⟩
  | cons c rest ih =>
    by_cases h : c.name = cname
    · rw [addDoc, if_pos h]
      obtain ⟨l, hl, hn, hf⟩ := addFileToLevel_adds c.children lname f
      exact ⟨⟨c.name, addFileToLevel c.children lname f⟩, List.mem_cons_self _ _,
        h, l, hl, hn, hf⟩
    · rw [addDoc, if_neg h]
      obtain ⟨c', hc', hcn, rest'⟩ := ih
      exact ⟨c', List.mem_cons_of_mem _ hc', hcn, rest'⟩

theorem addDoc_keeps (tree : List CatNode) (cname lname : List Char)
    (f : FileNode) {x y : List Char} {g : FileNode}
    (h : groupedUnder tree x y g) :
    groupedUnder (addDoc tree cname lname f) x y g := by
  induction tree with
  | nil => exact absurd h (by simp [groupedUnder])
  | cons c rest ih =>
    obtain ⟨c0, hc0, hn0, hrest⟩ := h
    by_cases h1 : c.name = cname
    · rw [addDoc, if_pos h1]
      rcases List.mem_cons.mp hc0 with rfl | hmem
      · exact ⟨⟨c0.name, addFileToLevel c0.children lname f⟩,
          List.mem_cons_self _ _, hn0, addFileToLevel_keeps c0.children lname f hrest⟩
      · exact ⟨c0, List.mem_cons_of_mem _ hmem, hn0, hrest⟩
    · rw [addDoc, if_neg h1]
      rcases List.mem_cons.mp hc0 with rfl | hmem
      · exact ⟨c0, List.mem_cons_self _ _, hn0, hrest⟩
      · obtain ⟨c', hc', hn', hrest'⟩ := ih ⟨c0, hmem, hn0, hrest⟩
        exact ⟨c', List.mem_cons_of_mem _ hc', hn', hrest'⟩

theorem build_tree_go_keeps (docs : List Meta) (tree : List CatNode)
    {x y : List Char} {g : FileNode} (h : groupedUnder tree x y g) :
    groupedUnder (build_tree_go docs tree) x y g := by
  induction docs generalizing tree with
  | nil => exact h
  | cons d rest ih => exact ih _ (addDoc_keeps _ _ _ _ h)

theorem build_tree_go_mem (docs : List Meta) (tree : List CatNode)
    {d : Meta} (hd : d ∈ docs) :
    groupedUnder (build_tree_go docs tree)
      (metaGetD d ("category_name".toList) ("未分类".toList))
      (level_to_name (metaGetD d ("level".toList) []))
      ⟨metaGetD d ("name".toList) [],
        ("content/".toList) ++ metaGetD d ("path".toList) [],
        metaGetD d ("title".toList) (metaGetD d ("name".toList) [])⟩ := by
  induction docs generalizing tree with
  | nil => exact absurd hd (by simp)
  | cons e rest ih =>
    rcases List.mem_cons.mp hd with rfl | hmem
    · exact build_tree_go_keeps rest _ (addDoc_adds _ _ _ _)
    · exact ih _ hmem

/-- Claim C8 (amended): every included document is grouped under the level-2
node named by its `category_name` value when the key is present (even when
that value is the empty string), and under the `未分类` sentinel only when
the key is absent. -/
theorem tree_grouping (docs : List Meta) (d : Meta) (hd : d ∈ docs)
    (hinc : (metaTruthy d ("category_code".toList)
      && metaTruthy d ("level".toList)) = true) :
    groupedUnder (build_tree_safe docs)
      (metaGetD d ("category_name".toList) ("未分类".toList))
      (level_to_name (metaGetD d ("level".toList) []))
      ⟨metaGetD d ("name".toList) [],
        ("content/".toList) ++ metaGetD d ("path".toList) [],
        metaGetD d ("title".toList) (metaGetD d ("name".toList) [])⟩ ∧
    (metaGet d ("category_name".toList) = none →
      metaGetD d ("category_name".toList) ("未分类".toList) = "未分类".toList) := by
  constructor
  · have hfil : d ∈ docs.filter (fun d =>
        metaTruthy d ("category_code".toList) && metaTruthy d ("level".toList)) :=
      List.mem_filter.mpr ⟨hd, hinc⟩
    have hsorted : d ∈ List.insertionSort treeDocLe (docs.filter (fun d =>
        metaTruthy d ("category_code".toList) && metaTruthy d ("level".toList))) :=
      (List.perm_insertionSort treeDocLe _).mem_iff.mpr hfil
    exact build_tree_go_mem _ [] hsorted
  · intro habs
    rw [metaGetD]
    rw [metaGet] at habs
    cases hf : (List.find? (fun kv => kv.1 == ("category_name".toList)) d) with
    | none => rfl
    | some kv =>
      rw [hf] at habs
      exact absurd habs (by simp)

/-- Claim C8, as stated, is false: a document whose `category_name` is
present but empty is included (its `category_code` and `level` are truthy)
yet is grouped under a level-2 node named `""`, not under the `未分类`
sentinel — because `doc.get('category_name', '未分类')` defaults only on an
absent key. -/
theorem tree_grouping_counterexample :
    (metaTruthy docY ("category_code".toList)
      && metaTruthy docY ("level".toList)) = true ∧
    metaGet docY ("category_name".toList) = some [] ∧
    (build_tree_safe [docY]).map CatNode.name = [[]] := by
  refine ⟨by decide, by decide, by decide⟩

theorem tree_grouping_witness :
    docZ ∈ [docZ] ∧
    (metaTruthy docZ ("category_code".toList)
      && metaTruthy docZ ("level".toList)) = true ∧
    (groupedUnder (build_tree_safe [docZ])
      (metaGetD docZ ("category_name".toList) ("未分类".toList))
      (level_to_name (metaGetD docZ ("level".toList) []))
      ⟨metaGetD docZ ("name".toList) [],
        ("content/".toList) ++ metaGetD docZ ("path".toList) [],
        metaGetD docZ ("title".toList) (metaGetD docZ ("name".toList) [])⟩ ∧
    (metaGet docZ ("category_name".toList) = none →
      metaGetD docZ ("category_name".toList) ("未分类".toList) = "未分类".toList)) :=
  ⟨List.mem_singleton_self _, by decide, tree_grouping [docZ] docZ
    (List.mem_singleton_self _) (by decide)⟩

/-- Claim C1: the claim (and the spec) require the dry-run `changed` flag to
equal the live flag; the code hard-codes `changed = True` in dry-run mode.
On a file that already carries the assigned metadata the live run reports
`changed = false` (and leaves the text alone) while dry-run reports `true`. -/
theorem dry_run_report_divergence :
    reportedChanged true textC1 assignC1 = true ∧
    reportedChanged false textC1 assignC1 = false ∧
    (ensure_front_matter textC1 assignC1).2 = textC1 := by
  refine ⟨rfl, by decide, by decide⟩

theorem metaGet_nil (k : List Char) : metaGet [] k = none := rfl

theorem metaGet_cons (kv : List Char × List Char) (m : Meta) (k : List Char) :
    metaGet (kv :: m) k = if kv.1 = k then some kv.2 else metaGet m k := by
  by_cases h : kv.1 = k
  · rw [metaGet, List.find?_cons_of_pos _ (by simp [h]), if_pos h]
    rfl
  · rw [metaGet, List.find?_cons_of_neg _ (by simp [h]), if_neg h]
    rfl

theorem upsert_get_self (m : Meta) (k v : List Char) :
    metaGet (upsert m k v) k = some v := by
  induction m with
  | nil => simp [upsert, metaGet_cons, metaGet_nil]
  | cons kv rest ih =>
    by_cases h : kv.1 = k
    · rw [upsert, if_pos h, metaGet_cons, if_pos rfl]
    · rw [upsert, if_neg h, metaGet_cons, if_neg h]
      exact ih

theorem upsert_get_other (m : Meta) {k k2 : List Char} (v : List Char)
    (h : k2 ≠ k) : metaGet (upsert m k2 v) k = metaGet m k := by
  induction m with
  | nil => simp [upsert, metaGet_cons, metaGet_nil, h]
  | cons kv rest ih =>
    by_cases h2 : kv.1 = k2
    · rw [upsert, if_pos h2, metaGet_cons, if_neg h, metaGet_cons, h2, if_neg h]
    · rw [upsert, if_neg h2, metaGet_cons, metaGet_cons]
      by_cases h3 : kv.1 = k
      · rw [if_pos h3, if_pos h3]
      · rw [if_neg h3, if_neg h3]
        exact ih

theorem applyStep_get_other (assign : Assign) (st : Meta × Bool)
    {k k2 : List Char} (h : k2 ≠ k) :
    metaGet (applyStep assign st k2).1 k = metaGet st.1 k := by
  cases hs : assignGet assign k2 with
  | none => simp only [applyStep, hs]
  | some o =>
    cases o with
    | none => simp only [applyStep, hs]
    | some v =>
      simp only [applyStep, hs]
      by_cases hv : v = []
      · rw [if_pos hv]
      · rw [if_neg hv]
        cases hm : metaGet st.1 k2 with
        | none => exact upsert_get_other st.1 v h
        | some old =>
          by_cases ho : old = v
          · show metaGet (if old = v then st else (upsert st.1 k2 v, true)).1 k
              = metaGet st.1 k
            rw [if_pos ho]
          · show metaGet (if old = v then st else (upsert st.1 k2 v, true)).1 k
              = metaGet st.1 k
            rw [if_neg ho]
            exact upsert_get_other st.1 v h

theorem applyStep_get_self (assign : Assign) (st : Meta × Bool)
    {k v : List Char} (hv : assignGet assign k = some (some v)) (hne : v ≠ []) :
    metaGet (applyStep assign st k).1 k = some v := by
  simp only [applyStep, hv]
  rw [if_neg hne]
  cases hm : metaGet st.1 k with
  | none => exact upsert_get_self st.1 k v
  | some old =>
    by_cases ho : old = v
    · show metaGet (if old = v then st else (upsert st.1 k v, true)).1 k = some v
      rw [if_pos ho, hm, ho]
    · show metaGet (if old = v then st else (upsert st.1 k v, true)).1 k = some v
      rw [if_neg ho]
      exact upsert_get_self st.1 k v

theorem applyAssignGo_get_not_mem (assign : Assign) (keys : List (List Char))
    (st : Meta × Bool) {k : List Char} (h : k ∉ keys) :
    metaGet (applyAssignGo assign keys st).1 k = metaGet st.1 k := by
  induction keys generalizing st with
  | nil => rfl
  | cons k2 rest ih =>
    rw [applyAssignGo, List.foldl_cons]
    have h2 : k2 ≠ k := fun he => h (he ▸ List.mem_cons_self k2 rest)
    have hrest := ih (applyStep assign st k2) (fun hm => h (List.mem_cons_of_mem _ hm))
    rw [applyAssignGo] at hrest
    rw [hrest]
    exact applyStep_get_other assign st h2

theorem applyAssignGo_get_mem (assign : Assign) (keys : List (List Char))
    (st : Meta × Bool) {k v : List Char} (hmem : k ∈ keys) (hnd : keys.Nodup)
    (hv : assignGet assign k = some (some v)) (hne : v ≠ []) :
    metaGet (applyAssignGo assign keys st).1 k = some v := by
  induction keys generalizing st with
  | nil => exact absurd hmem (by simp)
  | cons k2 rest ih =>
    rw [applyAssignGo, List.foldl_cons]
    rcases List.mem_cons.mp hmem with rfl | hmem2
    · have hnot : k ∉ rest := (List.nodup_cons.mp hnd).1
      have h1 := applyAssignGo_get_not_mem assign rest (applyStep assign st k) hnot
      rw [applyAssignGo] at h1
      rw [h1]
      exact applyStep_get_self assign st hv hne
    · have h2 := ih (applyStep assign st k2) hmem2 (List.nodup_cons.mp hnd).2
      rw [applyAssignGo] at h2
      exact h2

theorem ensure_changed_eq {text : List Char} {assign : Assign}
    (h : (ensure_front_matter text assign).1 = true) :
    (applyAssign (mergeMeta text) assign).2 = true ∧
    mergeNewText text assign ≠ text ∧
    (ensure_front_matter text assign).2 = mergeNewText text assign := by
  rw [ensure_front_matter] at h ⊢
  by_cases hc : (applyAssign (mergeMeta text) assign).2 = true ∧
      mergeNewText text assign ≠ text
  · rw [if_pos hc]
    exact ⟨hc.1, hc.2, rfl⟩
  · rw [if_neg hc] at h
    exact absurd h (by simp)

theorem ensure_unchanged_eq {text : List Char} {assign : Assign}
    (h : (ensure_front_matter text assign).1 = false) :
    (ensure_front_matter text assign).2 = text := by
  rw [ensure_front_matter] at h ⊢
  by_cases hc : (applyAssign (mergeMeta text) assign).2 = true ∧
      mergeNewText text assign ≠ text
  · rw [if_pos hc] at h
    exact absurd h (by simp)
  · rw [if_neg hc]

theorem isPrefixOf_append_of (p x y : List Char) (h : p.isPrefixOf x = true) :
    p.isPrefixOf (x ++ y) = true := by
  rw [List.isPrefixOf_iff_prefix] at h ⊢
  exact h.trans (List.prefix_append x y)

theorem hasKeyLine_of_append (a rest k : List Char)
    (ha : a = [] ∨ a.getLast? = some '\n')
    (hp : (k ++ (": ".toList)).isPrefixOf rest = true) :
    hasKeyLine (a ++ rest) k = true := by
  rw [hasKeyLine, List.any_eq_true]
  refine ⟨a.length, List.mem_range.mpr (by rw [List.length_append]; omega), ?_⟩
  rw [Bool.and_eq_true]
  refine ⟨?_, by rw [List.drop_left]; exact hp⟩
  rcases ha with rfl | ha
  · simp
  · have hne : a ≠ [] := by
      rintro rfl
      simp at ha
    have hlen : 0 < a.length := List.length_pos.mpr hne
    rw [Bool.or_eq_true]
    right
    rw [List.getElem?_append_left (by omega), ← List.getLast?_eq_getElem?, ha]
    rfl

theorem hasKeyLine_join (k e : List Char) :
    ∀ (entries : List (List Char)) (pre tail : List Char),
    (pre = [] ∨ pre.getLast? = some '\n') → e ∈ entries →
    (k ++ (": ".toList)).isPrefixOf e = true →
    hasKeyLine (pre ++ (joinLines entries ++ tail)) k = true
  | [], _, _, _, he, _ => absurd he (by simp)
  | e0 :: es, pre, tail, hpre, he, hp => by
    rcases List.mem_cons.mp he with rfl | he2
    · cases es with
      | nil =>
        exact hasKeyLine_of_append pre _ k hpre (isPrefixOf_append_of _ _ _ hp)
      | cons e1 es2 =>
        rw [joinLines, List.append_assoc]
        exact hasKeyLine_of_append pre _ k hpre (isPrefixOf_append_of _ _ _ hp)
    · cases es with
      | nil => exact absurd he2 (by simp)
      | cons e1 es2 =>
        have hshape : pre ++ (joinLines (e0 :: e1 :: es2) ++ tail)
            = (pre ++ e0 ++ ['\n']) ++ (joinLines (e1 :: es2) ++ tail) := by
          rw [joinLines]
          simp [List.append_assoc]
        rw [hshape]
        exact hasKeyLine_join k e (e1 :: es2) (pre ++ e0 ++ ['\n']) tail
          (Or.inr (List.getLast?_concat _)) he2 hp

theorem dumpEntry_leads (k v : List Char) :
    (k ++ (": ".toList)).isPrefixOf (dumpEntry k v) = true := by
  rw [dumpEntry]
  split_ifs
  · rw [List.isPrefixOf_iff_prefix]
    refine ⟨(Char.ofNat 0x22 :: escapeQuotes v) ++ [Char.ofNat 0x22], ?_⟩
    simp [List.append_assoc]
  · rw [List.isPrefixOf_iff_prefix]
    refine ⟨v, ?_⟩
    simp [List.append_assoc]

theorem dumpEntry_mem (d : Meta) (k v : List Char) (hk : k ∈ dumpKeys)
    (hv : metaGet d k = some v) (hne : v ≠ []) :
    dumpEntry k v ∈ dumpEntries d := by
  rw [dumpEntries]
  refine List.mem_filterMap.mpr ⟨k, hk, ?_⟩
  rw [hv]
  simp [hne]

theorem dumpEntries_mem_inv {d : Meta} {e : List Char} (he : e ∈ dumpEntries d) :
    ∃ k v, k ∈ dumpKeys ∧ metaGet d k = some v ∧ v ≠ [] ∧ e = dumpEntry k v := by
  rw [dumpEntries] at he
  obtain ⟨k, hk, hg⟩ := List.mem_filterMap.mp he
  cases hm : metaGet d k with
  | none =>
    rw [hm] at hg
    exact absurd hg (by simp)
  | some v =>
    rw [hm] at hg
    have hg2 : (if v = [] then none else some (dumpEntry k v)) = some e := hg
    by_cases hv : v = []
    · rw [if_pos hv] at hg2
      exact absurd hg2 (by simp)
    · rw [if_neg hv] at hg2
      exact ⟨k, v, hk, hm, hv, (Option.some.injEq .. ▸ hg2).symm⟩

theorem applyStep_get_empty (assign : Assign) (st : Meta × Bool) {k : List Char}
    (h : assignGet assign k = some none ∨ assignGet assign k = some (some [])) :
    metaGet (applyStep assign st k).1 k = metaGet st.1 k := by
  rcases h with h | h
  · simp only [applyStep, h]
  · simp only [applyStep, h]
    rw [if_pos trivial]

theorem applyAssignGo_get_empty (assign : Assign) {k : List Char}
    (h : assignGet assign k = some none ∨ assignGet assign k = some (some [])) :
    ∀ (keys : List (List Char)) (st : Meta × Bool),
    metaGet (applyAssignGo assign keys st).1 k = metaGet st.1 k
  | [], _ => rfl
  | k2 :: rest, st => by
    rw [applyAssignGo, List.foldl_cons]
    have hrest := applyAssignGo_get_empty assign h rest (applyStep assign st k2)
    rw [applyAssignGo] at hrest
    rw [hrest]
    by_cases h2 : k2 = k
    · rw [h2]
      exact applyStep_get_empty assign st h
    · exact applyStep_get_other assign st h2

/-- Claim C2 (amended), in three parts: after a merge that reports a change,
every front-matter key whose supplied value is non-empty appears as a
`key: value` line in the result; a key supplied with an empty (or `None`)
value is never inserted — the merge leaves the stored metadata at that key
exactly as it was; and the dumper never emits an empty value, quoted or
otherwise — every emitted header line belongs to a key whose stored value is
non-empty. -/
theorem merge_presence_amended (text : List Char) (assign : Assign) :
    (∀ k ∈ FRONT_KEYS, ∀ v, assignGet assign k = some (some v) → v ≠ [] →
      (ensure_front_matter text assign).1 = true →
      hasKeyLine (ensure_front_matter text assign).2 k = true)
    ∧ (∀ k, assignGet assign k = some none ∨ assignGet assign k = some (some []) →
        metaGet (applyAssign (mergeMeta text) assign).1 k
          = metaGet (mergeMeta text) k)
    ∧ (∀ d : Meta, ∀ e ∈ dumpEntries d,
        ∃ k v, k ∈ dumpKeys ∧ metaGet d k = some v ∧ v ≠ []
          ∧ e = dumpEntry k v) := by
  refine ⟨?_, ?_, ?_⟩
  · intro k hk v hv hne hch
    obtain ⟨hc2, hcne, hsnd⟩ := ensure_changed_eq hch
    rw [hsnd, mergeNewText]
    have hget : metaGet (applyAssign (mergeMeta text) assign).1 k = some v := by
      rw [applyAssign]
      exact applyAssignGo_get_mem assign _ _
        (List.mem_append_left _ hk) (by decide) hv hne
    have hmem := dumpEntry_mem _ k v (List.mem_cons_of_mem _ hk) hget hne
    have hshape : dashes ++ '\n' :: (dump_yaml (applyAssign (mergeMeta text) assign).1
          ++ (dashes ++ '\n' :: pyLstrip (mergeBody text)))
        = (dashes ++ ['\n']) ++ (joinLines (dumpEntries (applyAssign (mergeMeta text)
            assign).1) ++ (['\n'] ++ (dashes ++ '\n' :: pyLstrip (mergeBody text)))) := by
      rw [dump_yaml]
      simp [List.append_assoc]
    rw [hshape]
    exact hasKeyLine_join k (dumpEntry k v) _ _ _
      (Or.inr (List.getLast?_concat _)) hmem (dumpEntry_leads k v)
  · intro k h
    rw [applyAssign]
    exact applyAssignGo_get_empty assign h _ _
  · intro d e he
    exact dumpEntries_mem_inv he

/-- Claim C2, as stated, is false: with a non-empty assignment whose
`category_name` value is the empty string, the merged header contains no
`category_name` line at all (empty values are skipped, not emitted quoted). -/
theorem header_presence_counterexample :
    assignGet assignC2 ("category_name".toList) = some (some []) ∧
    (ensure_front_matter textC2 assignC2).1 = true ∧
    hasKeyLine (ensure_front_matter textC2 assignC2).2 ("category_name".toList)
      = false := by
  refine ⟨by decide, by decide, by decide⟩

theorem merge_presence_amended_witness :
    (("category_code".toList) ∈ FRONT_KEYS ∧
      assignGet assignC2 ("category_code".toList) = some (some ("X".toList)) ∧
      ("X".toList) ≠ ([] : List Char) ∧
      (ensure_front_matter textC2 assignC2).1 = true) ∧
    hasKeyLine (ensure_front_matter textC2 assignC2).2 ("category_code".toList)
      = true ∧
    (assignGet assignC2 ("category_name".toList) = some (some []) ∧
      metaGet (applyAssign (mergeMeta textC2) assignC2).1 ("category_name".toList)
        = metaGet (mergeMeta textC2) ("category_name".toList)) ∧
    (dumpEntry ("title".toList) ("A".toList)
        ∈ dumpEntries [(("title".toList), ("A".toList))] ∧
      ∃ k v, k ∈ dumpKeys
        ∧ metaGet [(("title".toList), ("A".toList))] k = some v ∧ v ≠ []
        ∧ dumpEntry ("title".toList) ("A".toList) = dumpEntry k v) :=
  ⟨⟨by decide, by decide, by decide, by decide⟩,
    (merge_presence_amended textC2 assignC2).1 ("category_code".toList) (by decide)
      ("X".toList) (by decide) (by decide) (by decide),
    ⟨by decide,
      (merge_presence_amended textC2 assignC2).2.1 ("category_name".toList)
        (Or.inr (by decide))⟩,
    ⟨by decide,
      (merge_presence_amended textC2 assignC2).2.2
        [(("title".toList), ("A".toList))]
        (dumpEntry ("title".toList) ("A".toList)) (by decide)⟩⟩

/-- Claim C3, as stated, is false: a pre-existing header value containing a
double quote (`a "b`) is escaped on dump but not unescaped on parse, so with
an assignment that still reports a change (value `"X` round-trips as `X`),
the second merge reports `changed = true` and produces different text. -/
theorem merge_not_idempotent_counterexample :
    (ensure_front_matter textC3 assignC3).1 = true ∧
    (ensure_front_matter (ensure_front_matter textC3 assignC3).2 assignC3).1
      = true ∧
    (ensure_front_matter (ensure_front_matter textC3 assignC3).2 assignC3).2
      ≠ (ensure_front_matter textC3 assignC3).2 := by
  refine ⟨by decide, by decide, by decide⟩

theorem goodVal_no_quote {v : List Char} (h : goodVal v = true) :
    ∀ c ∈ v, (c.toNat == 0x22) = false := by
  intro c hc
  simp only [goodVal, Bool.and_eq_true, List.all_eq_true] at h
  have h1 := h.1.1 c hc
  simpa using h1.1

theorem goodVal_no_break {v : List Char} (h : goodVal v = true) :
    noBreak v = true := by
  simp only [goodVal, Bool.and_eq_true, List.all_eq_true] at h
  rw [noBreak, List.all_eq_true]
  intro c hc
  have h1 := h.1.1 c hc
  exact h1.2

theorem goodVal_head {v : List Char} {c : Char} (h : goodVal v = true)
    (hc : v.head? = some c) : (c.toNat == 0x27) = false := by
  simp only [goodVal, Bool.and_eq_true] at h
  have h2 := h.1.2
  rw [hc] at h2
  simpa using h2

theorem goodVal_last {v : List Char} {c : Char} (h : goodVal v = true)
    (hc : v.getLast? = some c) : (c.toNat == 0x27) = false := by
  simp only [goodVal, Bool.and_eq_true] at h
  have h2 := h.2
  rw [hc] at h2
  simpa using h2

theorem escapeQuotes_id {v : List Char}
    (h : ∀ c ∈ v, (c.toNat == 0x22) = false) : escapeQuotes v = v := by
  induction v with
  | nil => rfl
  | cons c cs ih =>
    have hc := h c (List.mem_cons_self c cs)
    rw [escapeQuotes, if_neg (by rw [hc]; exact Bool.false_ne_true),
      ih (fun d hd => h d (List.mem_cons_of_mem c hd))]

theorem dropWhile_cons_neg {p : Char → Bool} {c : Char} (h : p c = false)
    (l : List Char) : (c :: l).dropWhile p = c :: l := by
  rw [List.dropWhile_cons, if_neg (by rw [h]; exact Bool.false_ne_true)]

theorem dropWhile_all_false {p : Char → Bool} :
    ∀ {l : List Char}, (∀ c ∈ l, p c = false) → l.dropWhile p = l
  | [], _ => rfl
  | c :: l, h => dropWhile_cons_neg (h c (List.mem_cons_self c l)) l

theorem pyLstrip_no_ws {l : List Char} (h : ∀ c ∈ l, isWs c = false) :
    pyLstrip l = l := dropWhile_all_false h

theorem pyStrip_no_ws {l : List Char} (h : ∀ c ∈ l, isWs c = false) :
    pyStrip l = l := by
  rw [pyStrip, pyLstrip_no_ws h, pyRstrip,
    dropWhile_all_false (fun c hc => h c (List.mem_reverse.mp hc)),
    List.reverse_reverse]

theorem pyStrip_guarded {a : Char} {l : List Char} {b : Char}
    (ha : isWs a = false) (hb : isWs b = false) :
    pyStrip (a :: (l ++ [b])) = a :: (l ++ [b]) := by
  rw [pyStrip, pyLstrip, dropWhile_cons_neg ha, pyRstrip]
  have h1 : (a :: (l ++ [b])).reverse = b :: (l.reverse ++ [a]) := by
    rw [List.reverse_cons, List.reverse_append]
    simp
  rw [h1, dropWhile_cons_neg hb, ← h1, List.reverse_reverse]

theorem takeWhile_append_stop {p : Char → Bool} {c : Char} (hc : p c = false) :
    ∀ {k : List Char}, k.all p = true → ∀ rest,
      ((k ++ c :: rest).takeWhile p = k ∧ (k ++ c :: rest).dropWhile p = c :: rest)
  | [], _, rest => by
    constructor
    · rw [List.nil_append, List.takeWhile_cons,
        if_neg (by rw [hc]; exact Bool.false_ne_true)]
    · rw [List.nil_append, List.dropWhile_cons,
        if_neg (by rw [hc]; exact Bool.false_ne_true)]
  | a :: k, hk, rest => by
    rw [List.all_cons, Bool.and_eq_true] at hk
    obtain ⟨h1, h2⟩ := takeWhile_append_stop hc hk.2 rest
    constructor
    · rw [List.cons_append, List.takeWhile_cons, if_pos hk.1, h1]
    · rw [List.cons_append, List.dropWhile_cons, if_pos hk.1, h2]

theorem isQuoteChar_false {c : Char} (h22 : (c.toNat == 0x22) = false)
    (h27 : (c.toNat == 0x27) = false) : isQuoteChar c = false := by
  rw [isQuoteChar, h22, h27]
  rfl

theorem stripQuotes_id {v : List Char}
    (hq : ∀ c ∈ v, (c.toNat == 0x22) = false)
    (hh : ∀ c, v.head? = some c → (c.toNat == 0x27) = false)
    (hl : ∀ c, v.getLast? = some c → (c.toNat == 0x27) = false) :
    stripQuotes v = v := by
  rw [stripQuotes]
  cases v with
  | nil => rfl
  | cons c cs =>
    have hcq : isQuoteChar c = false :=
      isQuoteChar_false (hq c (List.mem_cons_self c cs)) (hh c (List.head?_cons))
    rw [stripLeadingQuote, if_neg (by rw [hcq]; exact Bool.false_ne_true)]
    rw [stripTrailingQuote]
    cases hlast : (c :: cs).getLast? with
    | none => rfl
    | some d =>
      have hd : d ∈ c :: cs := List.mem_of_getLast?_eq_some hlast
      have hdq : isQuoteChar d = false :=
        isQuoteChar_false (hq d hd) (hl d hlast)
      show (if isQuoteChar d = true then (c :: cs).dropLast else c :: cs) = c :: cs
      rw [if_neg (by rw [hdq]; exact Bool.false_ne_true)]

theorem stripQuotes_wrap (v : List Char) :
    stripQuotes (Char.ofNat 0x22 :: (v ++ [Char.ofNat 0x22])) = v := by
  rw [stripQuotes, stripLeadingQuote, if_pos (by decide), stripTrailingQuote,
    List.getLast?_concat]
  show (if isQuoteChar (Char.ofNat 0x22) = true then (v ++ [Char.ofNat 0x22]).dropLast
    else v ++ [Char.ofNat 0x22]) = v
  rw [if_pos (by decide)]
  exact List.dropLast_concat

theorem dumpKeys_facts : ∀ k ∈ dumpKeys,
    k ≠ [] ∧ k.all isKeyChar = true ∧ goodHead k = true ∧ noBreak k = true ∧
    (∀ c ∈ k, isWs c = false) := by decide

theorem not_needsQuote_no_ws {v : List Char} (h : needsQuote v = false) :
    ∀ c ∈ v, isWs c = false := by
  intro c hc
  cases hcw : isWs c with
  | false => rfl
  | true =>
    exfalso
    have : needsQuote v = true := by
      rw [needsQuote, List.any_eq_true]
      exact ⟨c, hc, by rw [hcw]; simp⟩
    rw [h] at this
    exact Bool.false_ne_true this

theorem noBreak_dumpEntry {k v : List Char} (hk : noBreak k = true)
    (hv : goodVal v = true) : noBreak (dumpEntry k v) = true := by
  have hvb : noBreak v = true := goodVal_no_break hv
  rw [noBreak, List.all_eq_true] at hk hvb
  rw [dumpEntry]
  split_ifs with hq
  · rw [escapeQuotes_id (goodVal_no_quote hv), noBreak, List.all_eq_true]
    intro c hc
    rw [List.mem_append] at hc
    rcases hc with hc | hc
    · rw [List.mem_append] at hc
      rcases hc with hc | hc
      · rw [List.mem_append] at hc
        rcases hc with hc | hc
        · exact hk c hc
        · have : c = ':' ∨ c = ' ' := by
            simpa using hc
          rcases this with rfl | rfl <;> decide
      · rcases List.mem_cons.mp hc with rfl | hc
        · decide
        · exact hvb c hc
    · have : c = Char.ofNat 0x22 := by
        simpa using hc
      rw [this]
      decide
  · rw [noBreak, List.all_eq_true]
    intro c hc
    rw [List.mem_append] at hc
    rcases hc with hc | hc
    · rw [List.mem_append] at hc
      rcases hc with hc | hc
      · exact hk c hc
      · have : c = ':' ∨ c = ' ' := by
          simpa using hc
        rcases this with rfl | rfl <;> decide
    · exact hvb c hc

theorem goodHead_dumpEntry {k v : List Char} (hk : goodHead k = true) :
    goodHead (dumpEntry k v) = true := by
  cases k with
  | nil => exact absurd hk (by decide)
  | cons c k2 =>
    rw [dumpEntry]
    rw [goodHead] at hk
    split_ifs <;> (rw [List.cons_append, List.cons_append]) <;> exact hk

theorem dumpEntry_ne_nil {k v : List Char} (hk : k ≠ []) :
    dumpEntry k v ≠ [] := by
  cases k with
  | nil => exact absurd rfl hk
  | cons c k2 =>
    rw [dumpEntry]
    split_ifs <;> simp

theorem parseLine_dumpEntry {k v : List Char} (hk : k ∈ dumpKeys)
    (hv : goodVal v = true) :
    ∃ w, parseLine (dumpEntry k v) = some (k, w) ∧ stripQuotes (pyStrip w) = v := by
  obtain ⟨hk0, hkall, hkh, hkb, hkws⟩ := dumpKeys_facts k hk
  have hColon : isKeyChar ':' = false := by decide
  cases hq : needsQuote v with
  | false =>
    have hnws := not_needsQuote_no_ws hq
    refine ⟨v, ?_, ?_⟩
    · have hline : dumpEntry k v = k ++ ':' :: ' ' :: v := by
        rw [dumpEntry, if_neg (by rw [hq]; exact Bool.false_ne_true)]
        rw [List.append_assoc]
        rfl
      rw [hline, parseLine]
      have h1 : (k ++ ':' :: ' ' :: v).dropWhile isWs = k ++ ':' :: ' ' :: v := by
        cases k with
        | nil => exact absurd rfl hk0
        | cons c k2 =>
          rw [List.cons_append]
          exact dropWhile_cons_neg (hkws c (List.mem_cons_self c k2)) _
      obtain ⟨h2, h3⟩ := takeWhile_append_stop hColon hkall (' ' :: v)
      simp only [h1, h2, h3]
      rw [if_neg hk0]
      have h4 : (':' :: ' ' :: v).dropWhile isWs = ':' :: ' ' :: v :=
        dropWhile_cons_neg (by decide) _
      rw [h4]
      have h5 : (' ' :: v).dropWhile isWs = v := by
        rw [List.dropWhile_cons, if_pos (by decide), dropWhile_all_false hnws]
      show some (k, (' ' :: v).dropWhile isWs) = some (k, v)
      rw [h5]
    · rw [pyStrip_no_ws hnws]
      exact stripQuotes_id (goodVal_no_quote hv)
        (fun c hc => goodVal_head hv hc) (fun c hc => goodVal_last hv hc)
  | true =>
    have hesc : escapeQuotes v = v := escapeQuotes_id (goodVal_no_quote hv)
    refine ⟨Char.ofNat 0x22 :: (v ++ [Char.ofNat 0x22]), ?_, ?_⟩
    · have hline : dumpEntry k v
          = k ++ ':' :: ' ' :: Char.ofNat 0x22 :: (v ++ [Char.ofNat 0x22]) := by
        rw [dumpEntry, if_pos (by rw [hq]), hesc]
        rw [List.append_assoc, List.append_assoc]
        rfl
      rw [hline, parseLine]
      have h1 : (k ++ ':' :: ' ' :: Char.ofNat 0x22 :: (v ++ [Char.ofNat 0x22])).dropWhile
          isWs = k ++ ':' :: ' ' :: Char.ofNat 0x22 :: (v ++ [Char.ofNat 0x22]) := by
        cases k with
        | nil => exact absurd rfl hk0
        | cons c k2 =>
          rw [List.cons_append]
          exact dropWhile_cons_neg (hkws c (List.mem_cons_self c k2)) _
      obtain ⟨h2, h3⟩ := takeWhile_append_stop hColon hkall
        (' ' :: Char.ofNat 0x22 :: (v ++ [Char.ofNat 0x22]))
      simp only [h1, h2, h3]
      rw [if_neg hk0]
      have h4 : (':' :: ' ' :: Char.ofNat 0x22 :: (v ++ [Char.ofNat 0x22])).dropWhile isWs
          = ':' :: ' ' :: Char.ofNat 0x22 :: (v ++ [Char.ofNat 0x22]) :=
        dropWhile_cons_neg (by decide) _
      rw [h4]
      have h5 : (' ' :: Char.ofNat 0x22 :: (v ++ [Char.ofNat 0x22])).dropWhile isWs
          = Char.ofNat 0x22 :: (v ++ [Char.ofNat 0x22]) := by
        rw [List.dropWhile_cons, if_pos (by decide)]
        exact dropWhile_cons_neg (by decide) _
      show some (k, (' ' :: Char.ofNat 0x22 :: (v ++ [Char.ofNat 0x22])).dropWhile isWs)
        = some (k, Char.ofNat 0x22 :: (v ++ [Char.ofNat 0x22]))
      rw [h5]
    · rw [pyStrip_guarded (by decide) (by decide)]
      exact stripQuotes_wrap v

theorem pySplitlinesGo_cons_nl (acc rest : List Char) :
    pySplitlinesGo acc ('\n' :: rest) = acc.reverse :: pySplitlinesGo [] rest := rfl

theorem pySplitlinesGo_cons_not_break {c : Char} (h : isLineBreak c = false)
    (acc cs : List Char) :
    pySplitlinesGo acc (c :: cs) = pySplitlinesGo (c :: acc) cs := by
  have hr : c ≠ '\r' := by
    intro he
    rw [he] at h
    exact absurd h (by decide)
  rw [pySplitlinesGo.eq_def]
  split
  · rename_i heq
    exact absurd heq (by simp)
  · rename_i cs2 heq
    injection heq with h1 h2
    exact absurd h1 hr
  · rename_i c2 cs2 heq
    injection heq with h1 h2
    subst h1
    subst h2
    rw [if_neg (by rw [h]; exact Bool.false_ne_true)]

theorem pySplitlinesGo_line : ∀ (e : List Char), noBreak e = true →
    ∀ acc rest, pySplitlinesGo acc (e ++ '\n' :: rest)
      = (acc.reverse ++ e) :: pySplitlinesGo [] rest
  | [], _, acc, rest => by
    rw [List.nil_append, pySplitlinesGo_cons_nl, List.append_nil]
  | c :: e2, he, acc, rest => by
    rw [noBreak, List.all_cons, Bool.and_eq_true] at he
    have hc : isLineBreak c = false := by
      simpa using he.1
    rw [List.cons_append, pySplitlinesGo_cons_not_break hc,
      pySplitlinesGo_line e2 he.2 (c :: acc) rest, List.reverse_cons,
      List.append_assoc, List.singleton_append]

theorem pySplitlinesGo_last : ∀ (e : List Char), noBreak e = true → e ≠ [] →
    ∀ acc, pySplitlinesGo acc e = [acc.reverse ++ e]
  | [], _, hne, _ => absurd rfl hne
  | c :: e2, he, _, acc => by
    rw [noBreak, List.all_cons, Bool.and_eq_true] at he
    have hc : isLineBreak c = false := by
      simpa using he.1
    rw [pySplitlinesGo_cons_not_break hc]
    cases he2 : e2 with
    | nil =>
      rw [pySplitlinesGo, if_neg (by simp), List.reverse_cons]
    | cons d e3 =>
      rw [← he2, pySplitlinesGo_last e2 he.2 (by rw [he2]; simp) (c :: acc),
        List.reverse_cons, List.append_assoc, List.singleton_append]

theorem pySplitlines_joinLines : ∀ (entries : List (List Char)),
    (∀ e ∈ entries, noBreak e = true ∧ e ≠ []) → entries ≠ [] →
    pySplitlines (joinLines entries) = entries
  | [], _, hne => absurd rfl hne
  | [e], h, _ => by
    obtain ⟨h1, h2⟩ := h e (List.mem_cons_self e [])
    rw [joinLines, pySplitlines, pySplitlinesGo_last e h1 h2 []]
    rfl
  | e :: e2 :: es, h, _ => by
    obtain ⟨h1, -⟩ := h e (List.mem_cons_self e _)
    rw [joinLines, pySplitlines, pySplitlinesGo_line e h1 [] _]
    rw [List.reverse_nil, List.nil_append]
    have hrec := pySplitlines_joinLines (e2 :: es)
      (fun e3 he3 => h e3 (List.mem_cons_of_mem e he3)) (by simp)
    rw [pySplitlines] at hrec
    rw [hrec]

theorem parseStep_dumpEntry {data : Meta} {k v : List Char} (hk : k ∈ dumpKeys)
    (hv : goodVal v = true) :
    parseStep data (dumpEntry k v) = upsert data k v := by
  obtain ⟨w, hw, hsv⟩ := parseLine_dumpEntry hk hv
  rw [parseStep, hw]
  show upsert data k (stripQuotes (pyStrip w)) = upsert data k v
  rw [hsv]

theorem dumpKeys_nodup : dumpKeys.Nodup := by decide

theorem foldl_parseStep_not_mem (d : Meta)
    (hd : ∀ k2 v2, metaGet d k2 = some v2 → goodVal v2 = true) :
    ∀ (keys : List (List Char)) (data : Meta) (k : List Char), k ∉ keys →
    (∀ k2 ∈ keys, k2 ∈ dumpKeys) →
    metaGet ((keys.filterMap (fun k2 =>
      match metaGet d k2 with
      | none => none
      | some v => if v = [] then none else some (dumpEntry k2 v))).foldl
        parseStep data) k = metaGet data k
  | [], _, _, _, _ => rfl
  | k0 :: keys2, data, k, hnm, hkeys => by
    have hk0 : k0 ≠ k := fun he => hnm (he ▸ List.mem_cons_self k0 keys2)
    have hnm2 : k ∉ keys2 := fun hm => hnm (List.mem_cons_of_mem _ hm)
    have hkeys2 : ∀ k2 ∈ keys2, k2 ∈ dumpKeys :=
      fun k2 h2 => hkeys k2 (List.mem_cons_of_mem _ h2)
    cases hm : metaGet d k0 with
    | none =>
      rw [List.filterMap_cons_none (by rw [hm])]
      exact foldl_parseStep_not_mem d hd keys2 data k hnm2 hkeys2
    | some v0 =>
      by_cases hv0 : v0 = []
      · rw [List.filterMap_cons_none (by
          rw [hm]
          show (if v0 = [] then none else some (dumpEntry k0 v0)) = none
          rw [if_pos hv0])]
        exact foldl_parseStep_not_mem d hd keys2 data k hnm2 hkeys2
      · rw [List.filterMap_cons_some (by
          rw [hm]
          show (if v0 = [] then none else some (dumpEntry k0 v0))
            = some (dumpEntry k0 v0)
          rw [if_neg hv0]), List.foldl_cons,
          parseStep_dumpEntry (hkeys k0 (List.mem_cons_self k0 keys2))
            (hd k0 v0 hm),
          foldl_parseStep_not_mem d hd keys2 _ k hnm2 hkeys2]
        exact upsert_get_other data v0 hk0

theorem foldl_parseStep_mem (d : Meta)
    (hd : ∀ k2 v2, metaGet d k2 = some v2 → goodVal v2 = true) :
    ∀ (keys : List (List Char)) (data : Meta) (k v : List Char), k ∈ keys →
    keys.Nodup → (∀ k2 ∈ keys, k2 ∈ dumpKeys) →
    metaGet d k = some v → v ≠ [] →
    metaGet ((keys.filterMap (fun k2 =>
      match metaGet d k2 with
      | none => none
      | some v => if v = [] then none else some (dumpEntry k2 v))).foldl
        parseStep data) k = some v
  | [], _, _, _, hmem, _, _, _, _ => absurd hmem (by simp)
  | k0 :: keys2, data, k, v, hmem, hnd, hkeys, hv, hne => by
    have hkeys2 : ∀ k2 ∈ keys2, k2 ∈ dumpKeys :=
      fun k2 h2 => hkeys k2 (List.mem_cons_of_mem _ h2)
    rcases List.mem_cons.mp hmem with rfl | hmem2
    · rw [List.filterMap_cons_some (by
        rw [hv]
        show (if v = [] then none else some (dumpEntry k v)) = some (dumpEntry k v)
        rw [if_neg hne]), List.foldl_cons,
        parseStep_dumpEntry (hkeys k (List.mem_cons_self k keys2)) (hd k v hv),
        foldl_parseStep_not_mem d hd keys2 _ k (List.nodup_cons.mp hnd).1 hkeys2]
      exact upsert_get_self data k v
    · cases hm : metaGet d k0 with
      | none =>
        rw [List.filterMap_cons_none (by rw [hm])]
        exact foldl_parseStep_mem d hd keys2 data k v hmem2
          (List.nodup_cons.mp hnd).2 hkeys2 hv hne
      | some v0 =>
        by_cases hv0 : v0 = []
        · rw [List.filterMap_cons_none (by
            rw [hm]
            show (if v0 = [] then none else some (dumpEntry k0 v0)) = none
            rw [if_pos hv0])]
          exact foldl_parseStep_mem d hd keys2 data k v hmem2
            (List.nodup_cons.mp hnd).2 hkeys2 hv hne
        · rw [List.filterMap_cons_some (by
            rw [hm]
            show (if v0 = [] then none else some (dumpEntry k0 v0))
              = some (dumpEntry k0 v0)
            rw [if_neg hv0]), List.foldl_cons,
            parseStep_dumpEntry (hkeys k0 (List.mem_cons_self k0 keys2))
              (hd k0 v0 hm)]
          exact foldl_parseStep_mem d hd keys2 _ k v hmem2
            (List.nodup_cons.mp hnd).2 hkeys2 hv hne

theorem parse_dump_get (d : Meta)
    (hd : ∀ k2 v2, metaGet d k2 = some v2 → goodVal v2 = true)
    {k v : List Char} (hk : k ∈ dumpKeys) (hv : metaGet d k = some v)
    (hne : v ≠ []) :
    metaGet (parse_yaml (joinLines (dumpEntries d))) k = some v := by
  have hents : ∀ e ∈ dumpEntries d, noBreak e = true ∧ e ≠ [] := by
    intro e he
    obtain ⟨k2, v2, hk2, hm2, hne2, rfl⟩ := dumpEntries_mem_inv he
    obtain ⟨-, -, -, hkb, -⟩ := dumpKeys_facts k2 hk2
    exact ⟨noBreak_dumpEntry hkb (hd k2 v2 hm2), dumpEntry_ne_nil
      (dumpKeys_facts k2 hk2).1⟩
  have hne2 : dumpEntries d ≠ [] := by
    intro h0
    have : dumpEntry k v ∈ dumpEntries d := dumpEntry_mem d k v hk hv hne
    rw [h0] at this
    exact absurd this (by simp)
  rw [parse_yaml, pySplitlines_joinLines _ hents hne2, dumpEntries]
  exact foldl_parseStep_mem d hd dumpKeys [] k v hk dumpKeys_nodup
    (fun _ h => h) hv hne

theorem fenceFree_of_noBreak : ∀ {e : List Char}, noBreak e = true →
    fenceFree e = true
  | [], _ => rfl
  | c :: cs, he => by
    rw [noBreak, List.all_cons, Bool.and_eq_true] at he
    have hc : c ≠ '\n' := by
      intro h
      rw [h] at he
      exact absurd he.1 (by decide)
    rw [fenceFree, nlOk, if_neg hc, Bool.true_and]
    exact fenceFree_of_noBreak he.2

theorem fenceFree_append : ∀ (e : List Char), noBreak e = true →
    ∀ (d : Char) (w : List Char), (d == '-') = false →
    fenceFree (d :: w) = true → fenceFree (e ++ '\n' :: d :: w) = true
  | [], _, d, w, hd, hf => by
    rw [List.nil_append, fenceFree, nlOk, if_pos rfl, List.head?_cons]
    show ((!(d == '-')) && fenceFree (d :: w)) = true
    rw [hd, hf]
    rfl
  | c :: e2, he, d, w, hd, hf => by
    rw [noBreak, List.all_cons, Bool.and_eq_true] at he
    have hc : c ≠ '\n' := by
      intro h
      rw [h] at he
      exact absurd he.1 (by decide)
    rw [List.cons_append, fenceFree, nlOk, if_neg hc, Bool.true_and]
    exact fenceFree_append e2 he.2 d w hd hf

theorem joinLines_cons_head (d : Char) (e2 : List Char) :
    ∀ (es : List (List Char)), ∃ w, joinLines ((d :: e2) :: es) = d :: w
  | [] => ⟨e2, rfl⟩
  | e3 :: es2 => ⟨e2 ++ '\n' :: joinLines (e3 :: es2), rfl⟩

theorem fenceFree_joinLines : ∀ (entries : List (List Char)),
    (∀ e ∈ entries, noBreak e = true ∧ goodHead e = true) →
    fenceFree (joinLines entries) = true
  | [], _ => rfl
  | [e], h => by
    rw [joinLines]
    exact fenceFree_of_noBreak (h e (List.mem_cons_self e [])).1
  | e :: e2 :: es, h => by
    obtain ⟨hnb, -⟩ := h e (List.mem_cons_self e _)
    obtain ⟨hnb2, hgh2⟩ := h e2 (List.mem_cons_of_mem e (List.mem_cons_self e2 es))
    cases e2 with
    | nil => exact absurd hgh2 (by decide)
    | cons d e2t =>
      rw [goodHead, Bool.and_eq_true] at hgh2
      have hd : (d == '-') = false := by
        simpa using hgh2.2
      obtain ⟨w, hw⟩ := joinLines_cons_head d e2t es
      have hrec : fenceFree (joinLines ((d :: e2t) :: es)) = true :=
        fenceFree_joinLines ((d :: e2t) :: es)
          (fun e3 he3 => h e3 (List.mem_cons_of_mem e he3))
      rw [joinLines, hw]
      rw [hw] at hrec
      exact fenceFree_append e hnb d w hd hrec

theorem wsNlTail_none_of_bodyOk : ∀ {B : List Char}, bodyOk B = true →
    wsNlTail B = none
  | [], _ => rfl
  | b :: bs, h => by
    have hb : isWs b = false := by
      rw [bodyOk] at h
      simpa using h
    rw [wsNlTail, if_neg (by rw [hb]; exact Bool.false_ne_true)]

theorem wsNlTail_nl {B : List Char} (hB : bodyOk B = true) :
    wsNlTail ('\n' :: B) = some B := by
  rw [wsNlTail, if_pos (by decide), wsNlTail_none_of_bodyOk hB]
  show (if ('\n' : Char) = '\n' then some B else none) = some B
  rw [if_pos rfl]

theorem bodyOk_pyLstrip : ∀ (x : List Char), bodyOk (pyLstrip x) = true
  | [] => rfl
  | c :: cs => by
    rw [pyLstrip, List.dropWhile_cons]
    by_cases h : isWs c = true
    · rw [if_pos h]
      exact bodyOk_pyLstrip cs
    · rw [if_neg h]
      rw [bodyOk]
      cases hc : isWs c with
      | false => rfl
      | true => exact absurd hc h

theorem dashes_not_prefix {d : Char} (hd : (d == '-') = false) (x : List Char) :
    dashes.isPrefixOf (d :: x) = false := by
  cases hp : dashes.isPrefixOf (d :: x) with
  | false => rfl
  | true =>
    exfalso
    rw [List.isPrefixOf_iff_prefix] at hp
    obtain ⟨t, ht⟩ := hp
    have : '-' = d := by
      have := List.cons.injEq .. ▸ ht
      exact this.1
    rw [← this] at hd
    simp at hd

theorem fenceSearchGo_canonical {B : List Char} (hB : bodyOk B = true) :
    ∀ (Y acc : List Char), fenceFree Y = true →
    fenceSearchGo acc (Y ++ '\n' :: (dashes ++ '\n' :: B))
      = some (acc.reverse ++ Y, B)
  | [], acc, _ => by
    rw [List.nil_append, fenceSearchGo,
      if_pos ⟨rfl, by rw [List.isPrefixOf_iff_prefix]; exact List.prefix_append _ _⟩,
      List.drop_left' (by rfl), wsNlTail_nl hB, List.append_nil]
  | c :: Y2, acc, hY => by
    by_cases hc : c = '\n'
    · subst hc
      rw [fenceFree, Bool.and_eq_true] at hY
      cases Y2 with
      | nil =>
        rw [nlOk, if_pos rfl] at hY
        exact absurd hY.1 (by decide)
      | cons d w =>
        rw [nlOk, if_pos rfl, List.head?_cons] at hY
        have hY2 : ((!(d == '-')) = true) ∧ fenceFree (d :: w) = true := hY
        have hd : (d == '-') = false := by
          simpa using hY2.1
        rw [List.cons_append, fenceSearchGo]
        rw [if_neg (fun hand => by
          have hp := hand.2
          rw [List.cons_append, dashes_not_prefix hd] at hp
          exact Bool.false_ne_true hp)]
        rw [fenceSearchGo_canonical hB (d :: w) ('\n' :: acc) hY2.2,
          List.reverse_cons, List.append_assoc, List.singleton_append]
    · have hY2 : fenceFree Y2 = true := by
        rw [fenceFree, nlOk, if_neg hc, Bool.true_and] at hY
        exact hY
      rw [List.cons_append, fenceSearchGo, if_neg (fun hand => hc hand.1),
        fenceSearchGo_canonical hB Y2 (c :: acc) hY2, List.reverse_cons,
        List.append_assoc, List.singleton_append]

theorem strictTail_canonical {Y B : List Char} (hgh : goodHead Y = true)
    (hff : fenceFree Y = true) (hB : bodyOk B = true) :
    strictTail ('\n' :: (Y ++ '\n' :: (dashes ++ '\n' :: B))) = some (Y, B) := by
  rw [strictTail, if_pos (by decide)]
  cases Y with
  | nil => exact absurd hgh (by decide)
  | cons c Y2 =>
    rw [goodHead, Bool.and_eq_true] at hgh
    have hcw : isWs c = false := by
      simpa using hgh.1
    have hst : strictTail ((c :: Y2) ++ '\n' :: (dashes ++ '\n' :: B)) = none := by
      rw [List.cons_append, strictTail,
        if_neg (by rw [hcw]; exact Bool.false_ne_true)]
    rw [hst]
    show (if ('\n' : Char) = '\n' then
      fenceSearchGo [] ((c :: Y2) ++ '\n' :: (dashes ++ '\n' :: B)) else none)
      = some (c :: Y2, B)
    rw [if_pos rfl, fenceSearchGo_canonical hB (c :: Y2) [] hff,
      List.reverse_nil, List.nil_append]

theorem strictMatch_canonical {Y B : List Char} (hgh : goodHead Y = true)
    (hff : fenceFree Y = true) (hB : bodyOk B = true) :
    strictMatch (dashes ++ '\n' :: (Y ++ '\n' :: (dashes ++ '\n' :: B)))
      = some (Y, B) := by
  rw [strictMatch,
    if_pos (by rw [List.isPrefixOf_iff_prefix]; exact List.prefix_append _ _),
    List.drop_left' (by rfl)]
  exact strictTail_canonical hgh hff hB

theorem split_front_matter_canonical {Y B : List Char} (hgh : goodHead Y = true)
    (hff : fenceFree Y = true) (hB : bodyOk B = true) :
    split_front_matter (dashes ++ '\n' :: (Y ++ '\n' :: (dashes ++ '\n' :: B)))
      = (some Y, B) := by
  rw [split_front_matter,
    if_pos (by rw [List.isPrefixOf_iff_prefix]; exact List.prefix_append _ _),
    strictMatch_canonical hgh hff hB]

theorem mergeNewText_shape (text : List Char) (assign : Assign) :
    mergeNewText text assign
      = dashes ++ '\n' :: (joinLines (dumpEntries (applyAssign (mergeMeta text)
          assign).1) ++ '\n' :: (dashes ++ '\n' :: pyLstrip (mergeBody text))) := by
  rw [mergeNewText, dump_yaml, List.append_assoc, List.singleton_append]

theorem upsert_mem {m : Meta} {k v : List Char}
    {kv : List Char × List Char} (h : kv ∈ upsert m k v) :
    kv ∈ m ∨ kv = (k, v) := by
  induction m with
  | nil =>
    right
    simpa [upsert] using h
  | cons kv0 rest ih =>
    by_cases h0 : kv0.1 = k
    · rw [upsert, if_pos h0] at h
      rcases List.mem_cons.mp h with rfl | hm
      · right
        rfl
      · left
        exact List.mem_cons_of_mem _ hm
    · rw [upsert, if_neg h0] at h
      rcases List.mem_cons.mp h with rfl | hm
      · left
        exact List.mem_cons_self _ _
      · rcases ih hm with hm2 | hm2
        · left
          exact List.mem_cons_of_mem _ hm2
        · right
          exact hm2

theorem applyStep_mem {assign : Assign} {st : Meta × Bool} {k : List Char}
    {kv : List Char × List Char} (h : kv ∈ (applyStep assign st k).1) :
    kv ∈ st.1 ∨ ∃ v, assignGet assign k = some (some v) ∧ kv = (k, v) := by
  rcases hs : assignGet assign k with - | o
  · simp only [applyStep, hs] at h
    exact Or.inl h
  · cases o with
    | none =>
      simp only [applyStep, hs] at h
      exact Or.inl h
    | some v =>
      simp only [applyStep, hs] at h
      by_cases hv : v = []
      · rw [if_pos hv] at h
        exact Or.inl h
      · rw [if_neg hv] at h
        cases hm : metaGet st.1 k with
        | none =>
          rw [hm] at h
          rcases upsert_mem h with h2 | h2
          · exact Or.inl h2
          · exact Or.inr ⟨v, rfl, h2⟩
        | some old =>
          rw [hm] at h
          by_cases ho : old = v
          · have h2 : kv ∈ st.1 := by
              have hred : (if old = v then st else (upsert st.1 k v, true)) = st :=
                if_pos ho
              rw [show ((if old = v then st else (upsert st.1 k v, true)).1 : Meta)
                = st.1 by rw [hred]] at h
              exact h
            exact Or.inl h2
          · have hred : (if old = v then st else (upsert st.1 k v, true))
                = (upsert st.1 k v, true) := if_neg ho
            rw [show ((if old = v then st else (upsert st.1 k v, true)).1 : Meta)
              = upsert st.1 k v by rw [hred]] at h
            rcases upsert_mem h with h2 | h2
            · exact Or.inl h2
            · exact Or.inr ⟨v, rfl, h2⟩

theorem applyAssignGo_mem (assign : Assign) :
    ∀ (keys : List (List Char)) (st : Meta × Bool) (kv : List Char × List Char),
    kv ∈ (applyAssignGo assign keys st).1 →
    kv ∈ st.1 ∨ ∃ k ∈ keys, ∃ v, assignGet assign k = some (some v) ∧ kv = (k, v)
  | [], _, _, h => Or.inl h
  | k0 :: keys2, st, kv, h => by
    rw [applyAssignGo, List.foldl_cons] at h
    have h2 := applyAssignGo_mem assign keys2 (applyStep assign st k0) kv
      (by rw [applyAssignGo]; exact h)
    rcases h2 with h3 | ⟨k3, hk3, v3, hg3, he3⟩
    · rcases applyStep_mem h3 with h4 | ⟨v4, hg4, he4⟩
      · exact Or.inl h4
      · exact Or.inr ⟨k0, List.mem_cons_self _ _, v4, hg4, he4⟩
    · exact Or.inr ⟨k3, List.mem_cons_of_mem _ hk3, v3, hg3, he3⟩

theorem assignGet_some_mem {a : Assign} {k : List Char}
    {o : Option (List Char)} (h : assignGet a k = some o) :
    ∃ kv ∈ a, kv.2 = o := by
  rw [assignGet] at h
  cases hf : a.find? (fun kv => kv.1 == k) with
  | none =>
    rw [hf] at h
    exact absurd h (by simp)
  | some kv0 =>
    rw [hf] at h
    exact ⟨kv0, List.mem_of_find?_eq_some hf, by simpa using h⟩

theorem metaGet_some_mem {m : Meta} {k v : List Char}
    (h : metaGet m k = some v) : (k, v) ∈ m := by
  rw [metaGet] at h
  cases hf : m.find? (fun kv => kv.1 == k) with
  | none =>
    rw [hf] at h
    exact absurd h (by simp)
  | some kv0 =>
    rw [hf] at h
    have h1 : kv0.2 = v := by
      simpa using h
    have h2 : kv0.1 = k := by
      have := List.find?_some hf
      simpa using this
    rw [← h1, ← h2]
    exact List.mem_of_find?_eq_some hf

theorem applyStep_snd {assign : Assign} {st : Meta × Bool} {k : List Char}
    (h : (applyStep assign st k).2 = true) :
    st.2 = true ∨ ∃ v, assignGet assign k = some (some v) ∧ v ≠ [] := by
  rcases hs : assignGet assign k with - | o
  · simp only [applyStep, hs] at h
    exact Or.inl h
  · cases o with
    | none =>
      simp only [applyStep, hs] at h
      exact Or.inl h
    | some v =>
      by_cases hv : v = []
      · simp only [applyStep, hs, if_pos hv] at h
        exact Or.inl h
      · exact Or.inr ⟨v, rfl, hv⟩

theorem applyAssignGo_snd (assign : Assign) :
    ∀ (keys : List (List Char)) (st : Meta × Bool),
    (applyAssignGo assign keys st).2 = true →
    st.2 = true ∨ ∃ k ∈ keys, ∃ v, assignGet assign k = some (some v) ∧ v ≠ []
  | [], _, h => Or.inl h
  | k0 :: keys2, st, h => by
    rw [applyAssignGo, List.foldl_cons] at h
    have h2 := applyAssignGo_snd assign keys2 (applyStep assign st k0)
      (by rw [applyAssignGo]; exact h)
    rcases h2 with h3 | ⟨k3, hk3, v3, hg3, hne3⟩
    · rcases applyStep_snd h3 with h4 | ⟨v4, hg4, hne4⟩
      · exact Or.inl h4
      · exact Or.inr ⟨k0, List.mem_cons_self _ _, v4, hg4, hne4⟩
    · exact Or.inr ⟨k3, List.mem_cons_of_mem _ hk3, v3, hg3, hne3⟩

theorem applyAssignGo_nochange (assign : Assign) :
    ∀ (keys : List (List Char)) (m : Meta),
    (∀ k ∈ keys, ∀ v, assignGet assign k = some (some v) → v ≠ [] →
      metaGet m k = some v) →
    applyAssignGo assign keys (m, false) = (m, false)
  | [], _, _ => rfl
  | k0 :: keys2, m, hmem => by
    have hstep : applyStep assign (m, false) k0 = (m, false) := by
      rcases hs : assignGet assign k0 with - | o
      · simp only [applyStep, hs]
      · cases o with
        | none => simp only [applyStep, hs]
        | some v =>
          simp only [applyStep, hs]
          by_cases hv : v = []
          · rw [if_pos hv]
          · rw [if_neg hv, hmem k0 (List.mem_cons_self _ _) v hs hv]
            show (if v = v then ((m, false) : Meta × Bool)
              else (upsert m k0 v, true)) = (m, false)
            rw [if_pos rfl]
    rw [applyAssignGo, List.foldl_cons, hstep]
    have := applyAssignGo_nochange assign keys2 m
      (fun k hk v hg hne => hmem k (List.mem_cons_of_mem _ hk) v hg hne)
    rw [applyAssignGo] at this
    exact this

theorem loopKeys_sub_dumpKeys :
    ∀ k ∈ FRONT_KEYS ++ [("title".toList)], k ∈ dumpKeys := by decide

theorem loopKeys_nodup : (FRONT_KEYS ++ [("title".toList)]).Nodup := by decide

theorem goodHead_append {a : List Char} (ha : goodHead a = true)
    (b : List Char) : goodHead (a ++ b) = true := by
  cases a with
  | nil => exact absurd ha (by decide)
  | cons c a2 =>
    rw [List.cons_append]
    exact ha

theorem joinLines_goodHead : ∀ (entries : List (List Char)),
    entries ≠ [] → (∀ e ∈ entries, goodHead e = true) →
    goodHead (joinLines entries) = true
  | [], hne, _ => absurd rfl hne
  | [e], _, h => by
    rw [joinLines]
    exact h e (List.mem_cons_self e [])
  | e :: e2 :: es, _, h => by
    rw [joinLines]
    exact goodHead_append (h e (List.mem_cons_self e _)) _

/-- Claim C3 (amended): the header merge is idempotent — second application
returns `changed = false` and byte-identical text — provided no assignment
value and no pre-existing header value contains a double quote or a
line-break character or begins or ends with a single quote.  (Without that
proviso the dump-side quote escaping is not undone by the parse side and
idempotence fails, see the counterexample.) -/
theorem merge_idempotent (text : List Char) (assign : Assign)
    (ha : assign.all (fun kv => match kv.2 with
      | some v => goodVal v
      | none => true) = true)
    (hm : (mergeMeta text).all (fun kv => goodVal kv.2) = true) :
    ensure_front_matter (ensure_front_matter text assign).2 assign
      = (false, (ensure_front_matter text assign).2) := by
  have haP : ∀ kv ∈ assign, ∀ v, kv.2 = some v → goodVal v = true := by
    intro kv hkv v hv
    have h1 := List.all_eq_true.mp ha kv hkv
    rw [hv] at h1
    exact h1
  have hmP : ∀ kv ∈ mergeMeta text, goodVal kv.2 = true :=
    fun kv hkv => List.all_eq_true.mp hm kv hkv
  cases hfst : (ensure_front_matter text assign).1 with
  | false =>
    have ht := ensure_unchanged_eq hfst
    have hpair : ensure_front_matter text assign = (false, text) := by
      have h1 := Prod.mk.eta (p := ensure_front_matter text assign)
      rw [hfst, ht] at h1
      exact h1.symm
    rw [ht]
    exact hpair
  | true =>
    obtain ⟨hch, hnet, hsnd⟩ := ensure_changed_eq hfst
    rw [hsnd]
    have hMg : ∀ k2 v2,
        metaGet (applyAssign (mergeMeta text) assign).1 k2 = some v2 →
        goodVal v2 = true := by
      intro k2 v2 hget
      have hmem := metaGet_some_mem hget
      rw [applyAssign] at hmem
      rcases applyAssignGo_mem assign _ _ _ hmem with hin | ⟨k3, -, v3, hg3, he3⟩
      · exact hmP _ hin
      · obtain ⟨kv0, hkv0, hkv02⟩ := assignGet_some_mem hg3
        have hg := haP kv0 hkv0 v3 hkv02
        have hv23 : v2 = v3 := (Prod.mk.injEq .. ▸ he3).2
        rw [hv23]
        exact hg
    have hentsGood : ∀ e ∈ dumpEntries (applyAssign (mergeMeta text) assign).1,
        noBreak e = true ∧ goodHead e = true := by
      intro e he
      obtain ⟨k2, v2, hk2, hm2, hne2, rfl⟩ := dumpEntries_mem_inv he
      obtain ⟨-, -, hkh, hkb, -⟩ := dumpKeys_facts k2 hk2
      exact ⟨noBreak_dumpEntry hkb (hMg k2 v2 hm2), goodHead_dumpEntry hkh⟩
    have hex : ∃ k ∈ FRONT_KEYS ++ [("title".toList)],
        ∃ v, assignGet assign k = some (some v) ∧ v ≠ [] := by
      rw [applyAssign] at hch
      rcases applyAssignGo_snd assign _ _ hch with hfalse | hex2
      · exact absurd hfalse (by simp)
      · exact hex2
    obtain ⟨k0, hk0mem, v0, hv0, hv0ne⟩ := hex
    have hk0dump : k0 ∈ dumpKeys := loopKeys_sub_dumpKeys k0 hk0mem
    have hM0 : metaGet (applyAssign (mergeMeta text) assign).1 k0 = some v0 := by
      rw [applyAssign]
      exact applyAssignGo_get_mem assign _ _ hk0mem loopKeys_nodup hv0 hv0ne
    have hentsNe : dumpEntries (applyAssign (mergeMeta text) assign).1 ≠ [] := by
      intro h0
      have hmem := dumpEntry_mem _ k0 v0 hk0dump hM0 hv0ne
      rw [h0] at hmem
      exact absurd hmem (by simp)
    have hheads : ∀ e ∈ dumpEntries (applyAssign (mergeMeta text) assign).1,
        goodHead e = true := fun e he => (hentsGood e he).2
    have hsplit : split_front_matter (mergeNewText text assign)
        = (some (joinLines (dumpEntries (applyAssign (mergeMeta text) assign).1)),
           pyLstrip (mergeBody text)) := by
      rw [mergeNewText_shape]
      exact split_front_matter_canonical
        (joinLines_goodHead _ hentsNe hheads)
        (fenceFree_joinLines _ hentsGood)
        (bodyOk_pyLstrip _)
    have hmeta2 : mergeMeta (mergeNewText text assign)
        = parse_yaml (joinLines (dumpEntries (applyAssign (mergeMeta text)
            assign).1)) := by
      rw [mergeMeta, hsplit]
    have hnochange : applyAssign (mergeMeta (mergeNewText text assign)) assign
        = (parse_yaml (joinLines (dumpEntries (applyAssign (mergeMeta text)
            assign).1)), false) := by
      rw [hmeta2, applyAssign]
      apply applyAssignGo_nochange
      intro k hkmem v hv hvne
      have hget1 : metaGet (applyAssign (mergeMeta text) assign).1 k = some v := by
        rw [applyAssign]
        exact applyAssignGo_get_mem assign _ _ hkmem loopKeys_nodup hv hvne
      exact parse_dump_get _ hMg (loopKeys_sub_dumpKeys k hkmem) hget1 hvne
    rw [ensure_front_matter, if_neg (fun hcond => by
      rw [hnochange] at hcond
      exact Bool.false_ne_true hcond.1)]

theorem merge_idempotent_witness :
    (assignW.all (fun kv => match kv.2 with
      | some v => goodVal v
      | none => true) = true) ∧
    ((mergeMeta textW).all (fun kv => goodVal kv.2) = true) ∧
    ensure_front_matter (ensure_front_matter textW assignW).2 assignW
      = (false, (ensure_front_matter textW assignW).2) :=
  ⟨by decide, by decide, merge_idempotent textW assignW (by decide) (by decide)⟩

end MyLex
